import Mathlib

/-! # Contiguous arena allocator (`contiguous.c`)

A shallow embedding of the allocator core of `contiguous.c`:
`make_contiguous`, `cfree`, `add_node` and `cmalloc`.

**Memory model.**

Memory is split by structure type: `Mem.blocks a` is the `struct contiguous`
stored at address `a`, `Mem.nodes a` is the `struct cnode` stored at address
`a`.  Addresses are natural numbers, `0` is `NULL`.  Every address holds some
record, so stale headers of released chunks stay readable, as in C.

**Machine integers (LP64).**

* `sizeof(struct contiguous) = 16`, `sizeof(struct cnode) = 32`;
* `int` is 32-bit two's complement: storing a pointer difference in an `int`
  is `toInt32`;
* `size_t` is 64-bit: converting a signed value to `size_t` is `toSizeT`, and
  `size + sizeof(struct cnode)` is computed modulo `2^64`;
* pointer plus offset is exact (an address that overflows is undefined in C).

**Range of the model.**

Records at different addresses are independent, and addresses do not wrap.  The
code agrees with this as long as every `nsize` it adds to a pointer is the
`size_t` of a positive `int` and the arena lies below `2^64`: then no address
passes `2^64`.  A chunk with a non-positive size has `nsize` of `0` or near
`2^64`; the statements about such sizes are limited to the empty-arena branch
of `cmalloc`, which adds no `nsize` to a pointer.
-/

namespace Contiguous

/-! ## Data model -/

/-- The arena header `struct contiguous`. -/
structure Block where
  first : Nat
  upper_limit : Nat
deriving DecidableEq, Repr

/-- The chunk header `struct cnode`. -/
structure Cnode where
  nsize : Nat
  prev : Nat
  next : Nat
  block : Nat
deriving DecidableEq, Repr

/-- Typed memory: the arena header and the chunk header stored at each address. -/
structure Mem where
  blocks : Nat → Block
  nodes : Nat → Cnode

/-- The constant `SIZEOF_CONTIGUOUS = sizeof(struct contiguous)`. -/
def SIZEOF_CONTIGUOUS : Nat := 16

/-- The constant `SIZEOF_CNODE = sizeof(struct cnode)`. -/
def SIZEOF_CNODE : Nat := 32

/-- Conversion of a signed value to the 32-bit `int` (two's complement wrap). -/
def toInt32 (z : Int) : Int := (z + 2147483648) % 4294967296 - 2147483648

/-- Conversion of a signed value to the 64-bit unsigned `size_t`. -/
def toSizeT (z : Int) : Nat := (z % 18446744073709551616).toNat

/-- The `size_t` value of `size + sizeof(struct cnode)` for an `int size`. -/
def need (size : Int) : Nat := (toSizeT size + SIZEOF_CNODE) % 18446744073709551616

/-! ### Field stores -/

/-- The store `b->first = v`. -/
def Mem.setFirst (m : Mem) (b v : Nat) : Mem :=
  { m with blocks := Function.update m.blocks b { m.blocks b with first := v } }

/-- The store `b->upper_limit = v`. -/
def Mem.setUpper (m : Mem) (b v : Nat) : Mem :=
  { m with blocks := Function.update m.blocks b { m.blocks b with upper_limit := v } }

/-- The store `n->nsize = v`. -/
def Mem.setNsize (m : Mem) (n v : Nat) : Mem :=
  { m with nodes := Function.update m.nodes n { m.nodes n with nsize := v } }

/-- The store `n->prev = v`. -/
def Mem.setPrev (m : Mem) (n v : Nat) : Mem :=
  { m with nodes := Function.update m.nodes n { m.nodes n with prev := v } }

/-- The store `n->next = v`. -/
def Mem.setNext (m : Mem) (n v : Nat) : Mem :=
  { m with nodes := Function.update m.nodes n { m.nodes n with next := v } }

/-- The store `n->block = v`. -/
def Mem.setBlock (m : Mem) (n v : Nat) : Mem :=
  { m with nodes := Function.update m.nodes n { m.nodes n with block := v } }

/-! ## Operations -/

/-- The function `gapsize(n0, n1)`: `(v1 - v0) - n0->nsize - sizeof(struct cnode)`
in `size_t` arithmetic. -/
def gapsize (m : Mem) (n0 n1 : Nat) : Nat :=
  toSizeT (((n1 : Int) - (n0 : Int)) - ((m.nodes n0).nsize : Int) - (SIZEOF_CNODE : Int))

/-- The function `make_contiguous(size)`, where `start` is the address returned
by `malloc(size)`.  Only the two header stores are modelled; the filler bytes
written after the header are payload bytes, which the typed memory does not
hold. -/
def make_contiguous (m : Mem) (start size : Nat) : Mem :=
  let m1 := m.setFirst start 0
  m1.setUpper start (start + size)

/-- The function `cfree(p)`.  Each statement reads the memory left by the
previous one. -/
def cfree (m : Mem) (p : Nat) : Mem :=
  if p = 0 then m
  else
    let cnode := p - SIZEOF_CNODE
    if (m.nodes cnode).next = 0 ∧ (m.nodes cnode).prev = 0 then
      let block := (m.nodes cnode).block
      m.setFirst block 0
    else if (m.nodes cnode).next = 0 then
      let m1 := m.setNext (m.nodes cnode).prev 0
      m1.setPrev cnode 0
    else if (m.nodes cnode).prev = 0 ∧ (m.nodes cnode).next ≠ 0 then
      let block := (m.nodes cnode).block
      let m1 := m.setFirst block (m.nodes cnode).next
      let m2 := m1.setPrev (m1.nodes cnode).next 0
      m2.setNext cnode 0
    else
      let m1 := m.setNext (m.nodes cnode).prev (m.nodes cnode).next
      m1.setPrev (m1.nodes cnode).next (m1.nodes cnode).prev

/-- The recursive helper `add_node(node, size, block)`.  The first argument
bounds the recursion depth: `none` means the bound was reached before the
function returned.  A result `some (p, m1)` is the returned pointer (`0` for
`NULL`) and the memory after the call. -/
def add_node : Nat → Mem → Nat → Int → Nat → Option (Nat × Mem)
  | 0, _, _, _, _ => none
  | fuel + 1, m, node, size, block =>
    let bottom_addr := (m.blocks block).upper_limit
    let block_addr := block
    let below_contiguous := block_addr + SIZEOF_CONTIGUOUS
    let first_node := node
    let first_chunk := first_node + SIZEOF_CNODE
    let second_node := (m.nodes node).next
    let byte_gap_2 : Int :=
      toInt32 ((second_node : Int) - ((first_chunk + (m.nodes node).nsize : Nat) : Int))
    let byte_gap : Int :=
      toInt32 ((bottom_addr : Int) - ((first_chunk + (m.nodes node).nsize : Nat) : Int))
    let gap_below_block : Int := toInt32 ((first_node : Int) - (below_contiguous : Int))
    if (m.nodes node).prev = 0 ∧ toSizeT gap_below_block > need size then
      let new_node := below_contiguous
      let m1 := m.setFirst block new_node
      let m2 := m1.setNext new_node node
      let m3 := m2.setNsize new_node (toSizeT size)
      let m4 := m3.setPrev new_node 0
      let m5 := m4.setBlock new_node block
      let m6 := m5.setPrev node new_node
      some (new_node + SIZEOF_CNODE, m6)
    else if (m.nodes node).next = 0 then
      if toSizeT byte_gap > need size then
        let new_node := first_chunk + (m.nodes node).nsize
        let m1 := m.setNext new_node 0
        let m2 := m1.setNsize new_node (toSizeT size)
        let m3 := m2.setPrev new_node node
        let m4 := m3.setBlock new_node block
        let m5 := m4.setNext node new_node
        some (new_node + SIZEOF_CNODE, m5)
      else some (0, m)
    else if (m.nodes node).next ≠ 0 then
      if toSizeT byte_gap_2 > need size then
        let new_node := first_chunk + (m.nodes node).nsize
        let m1 := m.setNext new_node (m.nodes node).next
        let m2 := m1.setPrev (m1.nodes node).next new_node
        let m3 := m2.setNext node new_node
        let m4 := m3.setPrev new_node node
        let m5 := m4.setNsize new_node (toSizeT size)
        let m6 := m5.setBlock new_node block
        some (new_node + SIZEOF_CNODE, m6)
      else add_node fuel m (m.nodes node).next size block
    else some (0, m)

/-- The function `cmalloc(block, size)`; the first argument bounds the
recursion depth of `add_node`. -/
def cmalloc (fuel : Nat) (m : Mem) (block : Nat) (size : Int) : Option (Nat × Mem) :=
  let bottom := (m.blocks block).upper_limit
  let block_cont := block
  if (m.blocks block).first = 0 then
    if toSizeT ((bottom : Int) - ((block_cont + SIZEOF_CONTIGUOUS : Nat) : Int)) > need size then
      let node := block_cont + SIZEOF_CONTIGUOUS
      let m1 := m.setBlock node block
      let m2 := m1.setNext node 0
      let m3 := m2.setNsize node (toSizeT size)
      let m4 := m3.setPrev node 0
      let m5 := m4.setFirst block node
      some (node + SIZEOF_CNODE, m5)
    else some (0, m)
  else add_node fuel m (m.blocks block).first size block

/-! ## Reading the chunk list -/

/-- The chunk headers met by following `next` from `node`, as `print_node`
walks them, stopping after `fuel` headers. -/
def walk : Nat → Mem → Nat → List Nat
  | 0, _, _ => []
  | fuel + 1, m, node =>
    if node = 0 then [] else node :: walk fuel m (m.nodes node).next

/-- Memory in which every record is zero. -/
def Mem.zero : Mem :=
  { blocks := fun _ => { first := 0, upper_limit := 0 },
    nodes := fun _ => { nsize := 0, prev := 0, next := 0, block := 0 } }

/-- Address just past the chunk at `n`: its header followed by its payload. -/
def chunkEnd (m : Mem) (n : Nat) : Nat := n + SIZEOF_CNODE + (m.nodes n).nsize

/-- The chunk list of the arena at `block`, read from `block->first` via `next`. -/
def chunkList (fuel : Nat) (m : Mem) (block : Nat) : List Nat :=
  walk fuel m (m.blocks block).first

/-! ## Client sessions

A reachable arena state is the memory of a session: `make_contiguous`
followed by calls of `cmalloc` with `0 < size` (an `int`, so below `2^31`) and of
`cfree` on handles that were returned by `cmalloc` and not released since. -/

/-- A call made by the client of one arena. -/
inductive Call where
  | alloc (size : Int)
  | release (p : Nat)

/-- State of a client session: the memory, the handles returned and not yet
released, and the values returned by the `cmalloc` calls, latest first. -/
structure Session where
  mem : Mem
  live : List Nat
  results : List Nat

/-- The session that has just created its arena of `size` bytes at `start`. -/
def Session.fresh (m : Mem) (start size : Nat) : Session :=
  { mem := make_contiguous m start size, live := [], results := [] }

/-- One client call; `none` when the call breaks the contract (`size` not
positive, handle not live) or when `cmalloc` does not return within `fuel`. -/
def Session.call (fuel block : Nat) (s : Session) : Call → Option Session
  | .alloc size =>
    if 0 < size ∧ size < 2147483648 then
      match cmalloc fuel s.mem block size with
      | some (p, m1) =>
        some { mem := m1, live := if p = 0 then s.live else p :: s.live,
               results := p :: s.results }
      | none => none
    else none
  | .release p =>
    if p ∈ s.live then
      some { mem := cfree s.mem p, live := s.live.erase p, results := s.results }
    else none

/-- A sequence of client calls. -/
def Session.run (fuel block : Nat) : Session → List Call → Option Session
  | s, [] => some s
  | s, c :: cs =>
    match s.call fuel block c with
    | some s1 => Session.run fuel block s1 cs
    | none => none

/-! ## Properties named by the specification

These follow the words of the specification, with exact (unbounded)
arithmetic, and are compared with what the code computes. -/

/-- No overlap: each chunk ends at or before the header of its successor. -/
def noOverlap (m : Mem) : List Nat → Bool
  | a :: b :: r => decide (chunkEnd m a ≤ b) && noOverlap m (b :: r)
  | _ => true

/-- Address order: the headers are at strictly increasing addresses. -/
def ascending : List Nat → Bool
  | a :: b :: r => decide (a < b) && ascending (b :: r)
  | _ => true

/-- Containment: every header is at or after the end of the arena header and
every footprint ends at or before `upper_limit`. -/
def contained (m : Mem) (block : Nat) (l : List Nat) : Bool :=
  l.all fun h =>
    decide (block + SIZEOF_CONTIGUOUS ≤ h) &&
      decide (chunkEnd m h ≤ (m.blocks block).upper_limit)

/-- First fit after the head gap, by the specification: the handle in the first
gap after a chunk of `l` that is strictly greater than `size + sizeof(struct
cnode)`, or `0` when there is none.  Gaps are exact integers. -/
def firstFitFrom (m : Mem) (upper : Nat) (size : Int) : List Nat → Nat
  | [] => 0
  | [c] =>
    if (upper : Int) - (chunkEnd m c : Int) > size + (SIZEOF_CNODE : Int) then
      chunkEnd m c + SIZEOF_CNODE
    else 0
  | c :: d :: r =>
    if (d : Int) - (chunkEnd m c : Int) > size + (SIZEOF_CNODE : Int) then
      chunkEnd m c + SIZEOF_CNODE
    else firstFitFrom m upper size (d :: r)

/-- First fit by the specification for the arena at `block` with chunk list `l`:
the empty-arena gap or the head gap first, then the gaps after each chunk. -/
def firstFitSpec (m : Mem) (block : Nat) (size : Int) (l : List Nat) : Nat :=
  match l with
  | [] =>
    if ((m.blocks block).upper_limit : Int) - ((block + SIZEOF_CONTIGUOUS : Nat) : Int)
        > size + (SIZEOF_CNODE : Int) then
      block + SIZEOF_CONTIGUOUS + SIZEOF_CNODE
    else 0
  | c :: r =>
    if (c : Int) - ((block + SIZEOF_CONTIGUOUS : Nat) : Int) > size + (SIZEOF_CNODE : Int) then
      block + SIZEOF_CONTIGUOUS + SIZEOF_CNODE
    else firstFitFrom m (m.blocks block).upper_limit size (c :: r)

/-- The pointer returned by a call, when it returned. -/
def returned (r : Option (Nat × Mem)) : Option Nat := r.map Prod.fst

/-! ## Well-formed arenas

The shape of the arena that the specification describes: the chunk headers form
a list in ascending address order, doubly linked, without overlap, inside the
arena.  It is stated for arenas smaller than `2^31` bytes, in which every gap
fits the `int` that `add_node` stores it in. -/

/-- The chunks of `l` are linked in this order after the chunk `prev` (or after
the arena header when `prev = 0`), none starts below `lo`, each ends at or
before its successor and the last ends at or before `upper_limit`. -/
def Linked (m : Mem) (block : Nat) : Nat → Nat → List Nat → Prop
  | _, _, [] => True
  | prev, lo, c :: r =>
    lo ≤ c ∧ (m.nodes c).prev = prev ∧ (m.nodes c).block = block ∧
      (m.nodes c).next = r.headD 0 ∧ chunkEnd m c ≤ (m.blocks block).upper_limit ∧
      Linked m block c (chunkEnd m c) r

/-- The arena at `block` is well formed with chunk list `l`, and is smaller
than `2^31` bytes. -/
structure WF (m : Mem) (block : Nat) (l : List Nat) : Prop where
  first : (m.blocks block).first = l.headD 0
  lower : block + SIZEOF_CONTIGUOUS ≤ (m.blocks block).upper_limit
  small : (m.blocks block).upper_limit < block + 2147483648
  linked : Linked m block 0 (block + SIZEOF_CONTIGUOUS) l

/-- The chunk list after a first-fit insertion behind the head gap: the new
header sits at the end of the first chunk whose following gap is strictly
greater than `size + sizeof(struct cnode)`. -/
def insertFrom (m : Mem) (upper : Nat) (size : Int) : List Nat → List Nat
  | [] => []
  | [c] =>
    if (upper : Int) - (chunkEnd m c : Int) > size + (SIZEOF_CNODE : Int) then
      [c, chunkEnd m c]
    else [c]
  | c :: d :: r =>
    if (d : Int) - (chunkEnd m c : Int) > size + (SIZEOF_CNODE : Int) then
      c :: chunkEnd m c :: d :: r
    else c :: insertFrom m upper size (d :: r)

/-- The chunk list after a first-fit allocation, by the specification. -/
def insertSpec (m : Mem) (block : Nat) (size : Int) (l : List Nat) : List Nat :=
  match l with
  | [] =>
    if ((m.blocks block).upper_limit : Int) - ((block + SIZEOF_CONTIGUOUS : Nat) : Int)
        > size + (SIZEOF_CNODE : Int) then
      [block + SIZEOF_CONTIGUOUS]
    else []
  | c :: r =>
    if (c : Int) - ((block + SIZEOF_CONTIGUOUS : Nat) : Int) > size + (SIZEOF_CNODE : Int) then
      (block + SIZEOF_CONTIGUOUS) :: c :: r
    else insertFrom m (m.blocks block).upper_limit size (c :: r)

/-- Invariant of a session: the arena is well formed with chunk list `l`, the
live handles are the payload addresses of the chunks of `l`, and `upper_limit`
is `upper`. -/
def Session.Inv (block upper : Nat) (s : Session) (l : List Nat) : Prop :=
  WF s.mem block l ∧ s.live.Perm (l.map (· + SIZEOF_CNODE)) ∧
    (s.mem.blocks block).upper_limit = upper

/-! ## Creation at the level of bytes -/

/-- The fill loop of `make_contiguous`,
`while (remain != end) { *remain = '$'; ++remain; }`: the addresses it writes,
in order.  The first argument bounds the number of tests of the loop condition;
`none` means the bound was reached before the loop ended. -/
def fill_loop : Nat → Nat → Nat → Option (List Nat)
  | 0, _, _ => none
  | fuel + 1, remain, end_ =>
    if remain ≠ end_ then (fill_loop fuel (remain + 1) end_).map (remain :: ·)
    else some []

/-- The byte addresses that `make_contiguous(size)` writes when `malloc` returned
`start` (`0` when it returned `NULL`; the code does not test it): the stores to
`start->first` and `start->upper_limit`, which cover the `sizeof(struct
contiguous)` bytes from `start`, then the fill loop from
`start + sizeof(struct contiguous)` to `start + size`. -/
def make_contiguous_writes (fuel start size : Nat) : Option (List Nat) :=
  (fill_loop fuel (start + SIZEOF_CONTIGUOUS) (start + size)).map
    (fun w => List.range' start SIZEOF_CONTIGUOUS ++ w)

/-- The addresses of a list that lie outside the range `[start, start + size)`. -/
def outside (start size : Nat) (w : List Nat) : List Nat :=
  w.filter (fun a => decide (a < start) || decide (start + size ≤ a))

/-! ## The gaps as `add_node` sees them -/

/-- The local `byte_gap_2` of `add_node`: the gap behind `node` up to its
successor, stored in an `int`. -/
def byte_gap_2 (m : Mem) (node : Nat) : Int :=
  toInt32 (((m.nodes node).next : Int) - ((node + SIZEOF_CNODE + (m.nodes node).nsize : Nat) : Int))

/-- The local `byte_gap` of `add_node`: the gap behind `node` up to
`upper_limit`, stored in an `int`. -/
def byte_gap (m : Mem) (node block : Nat) : Int :=
  toInt32 (((m.blocks block).upper_limit : Int)
    - ((node + SIZEOF_CNODE + (m.nodes node).nsize : Nat) : Int))

/-- The local `gap_below_block` of `add_node`: the gap between the end of the
arena header and `node`, stored in an `int`. -/
def gap_below_block (node block : Nat) : Int :=
  toInt32 ((node : Int) - ((block + SIZEOF_CONTIGUOUS : Nat) : Int))

/-! ## A reachable arena in which `next` cycles -/

/-- The arena of `2^32 - 110` bytes at 4096 after the calls below, all within the
contract.  The sixth call places a chunk of `2^31 - 1` bytes in a gap of `2^31`
bytes, the seventh links a chunk behind it that ends at the address of the live
tail header, and the eighth writes its header over that header: `next` then
leads from 4294971248 to 2147487793 and back. -/
def loopArena : Mem :=
  match Session.run 5 4096 (Session.fresh Mem.zero 4096 4294967186)
      [.alloc 1, .alloc 2147483616, .alloc 2147483423, .alloc 1, .release 4177,
       .alloc 2147483647, .alloc 2147483392, .alloc 2147483647] with
  | some s => s.mem
  | none => Mem.zero

/-! ## Address neighbours -/

/-- The header `p` is the address neighbour below `n` among the headers of `l`:
the highest header of `l` below `n`, or `NULL` when `l` has no header below `n`. -/
def IsAddrPrev (l : List Nat) (n p : Nat) : Prop :=
  (p = 0 ∧ ∀ a ∈ l, ¬a < n) ∨ (p ∈ l ∧ p < n ∧ ∀ a ∈ l, a < n → a ≤ p)

/-- The header `q` is the address neighbour above `n` among the headers of `l`:
the lowest header of `l` above `n`, or `NULL` when `l` has no header above `n`. -/
def IsAddrNext (l : List Nat) (n q : Nat) : Prop :=
  (q = 0 ∧ ∀ a ∈ l, ¬n < a) ∨ (q ∈ l ∧ n < q ∧ ∀ a ∈ l, n < a → q ≤ a)

/-- The arena of 1024 bytes at 4096 with two live chunks, of 100 and of 200
bytes, in memory that was zero before. -/
def twoChunkArena : Mem :=
  match Session.run 2 4096 (Session.fresh Mem.zero 4096 1024) [.alloc 100, .alloc 200] with
  | some s => s.mem
  | none => Mem.zero

/-- The arena `twoChunkArena` with a stale header in the tail gap, at the
address 4476 where the next chunk goes. -/
def twoChunkArenaStale : Mem :=
  (((twoChunkArena.setNsize 4476 999).setPrev 4476 4112).setNext 4476 4244).setBlock 4476 77

/-! ## Failure leaves the arena unchanged -/

/-- When `add_node` returns `NULL` the memory it returns is the memory it was
given: every store of `add_node` sits in a branch that returns a handle. -/
theorem add_node_null_unchanged :
    ∀ (fuel : Nat) (m : Mem) (node : Nat) (size : Int) (block : Nat) (m1 : Mem),
      add_node fuel m node size block = some (0, m1) → m1 = m := by
  intro fuel
  induction fuel with
  | zero => intro m node size block m1 h; simp [add_node] at h
  | succ k ih =>
    intro m node size block m1 h
    unfold add_node at h
    simp only [SIZEOF_CNODE] at h
    split_ifs at h
    · simp at h
    · simp at h
    · simp at h; exact h.symm
    · simp at h
    · exact ih _ _ _ _ _ h

/-- C6 (atomicity on failure): in every arena state, reachable or not, and for
every size, if `cmalloc(block, size)` returns `NULL` then the whole memory is
the one before the call: `block->first`, `upper_limit` and every field of every
chunk header are unchanged. -/
theorem cmalloc_null_leaves_memory_unchanged (fuel : Nat) (m : Mem) (block : Nat)
    (size : Int) (m1 : Mem) (h : cmalloc fuel m block size = some (0, m1)) : m1 = m := by
  unfold cmalloc at h
  simp only [SIZEOF_CNODE] at h
  split_ifs at h
  · simp at h
  · simp at h; exact h.symm
  · exact add_node_null_unchanged _ _ _ _ _ _ h

/-- Instance of C6: a request of 10 bytes in a fresh arena of 58 bytes, whose
only gap is exactly `10 + 32` bytes, returns `NULL` and changes nothing. -/
theorem cmalloc_null_leaves_memory_unchanged_witness :
    cmalloc 1 (make_contiguous Mem.zero 4096 58) 4096 10
        = some (0, (Mem.zero.setFirst 4096 0).setUpper 4096 4154) ∧
      (Mem.zero.setFirst 4096 0).setUpper 4096 4154 = make_contiguous Mem.zero 4096 58 :=
  ⟨rfl, cmalloc_null_leaves_memory_unchanged 1 (make_contiguous Mem.zero 4096 58) 4096 10
    ((Mem.zero.setFirst 4096 0).setUpper 4096 4154) rfl⟩

/-! ## Requests with a size that is not positive -/

/-- The `size_t` value of an `int` that is not positive. -/
theorem toSizeT_nonpositive (size : Int) (hs : size ≤ 0) (hlo : -2147483648 ≤ size) :
    toSizeT size = if size = 0 then 0 else (18446744073709551616 + size).toNat := by
  unfold toSizeT
  split_ifs with h
  · subst h; rfl
  · congr 1; omega

/-- Whenever `add_node` returns, it returns `NULL` and the memory it was given,
or a handle whose chunk header stores the requested size as a `size_t`. -/
theorem add_node_result :
    ∀ (fuel : Nat) (m : Mem) (node : Nat) (size : Int) (block p : Nat) (m1 : Mem),
      add_node fuel m node size block = some (p, m1) →
        (p = 0 ∧ m1 = m) ∨
          (p ≠ 0 ∧ (m1.nodes (p - SIZEOF_CNODE)).nsize = toSizeT size) := by
  intro fuel
  induction fuel with
  | zero => intro m node size block p m1 h; simp [add_node] at h
  | succ k ih =>
    intro m node size block p m1 h
    unfold add_node at h
    simp only [SIZEOF_CNODE, SIZEOF_CONTIGUOUS] at h ⊢
    split_ifs at h
    · simp only [Option.some.injEq, Prod.mk.injEq] at h
      obtain ⟨rfl, rfl⟩ := h
      right
      refine ⟨by omega, ?_⟩
      simp [Mem.setFirst, Mem.setPrev, Mem.setNsize, Mem.setNext, Mem.setBlock,
        Function.update_apply]
      split_ifs <;> first | rfl | omega
    · simp only [Option.some.injEq, Prod.mk.injEq] at h
      obtain ⟨rfl, rfl⟩ := h
      right
      refine ⟨by omega, ?_⟩
      simp [Mem.setFirst, Mem.setPrev, Mem.setNsize, Mem.setNext, Mem.setBlock,
        Function.update_apply]
      split_ifs <;> first | rfl | omega
    · simp only [Option.some.injEq, Prod.mk.injEq] at h
      obtain ⟨rfl, rfl⟩ := h
      left; exact ⟨rfl, rfl⟩
    · simp only [Option.some.injEq, Prod.mk.injEq] at h
      obtain ⟨rfl, rfl⟩ := h
      right
      refine ⟨by omega, ?_⟩
      simp [Mem.setFirst, Mem.setPrev, Mem.setNsize, Mem.setNext, Mem.setBlock,
        Function.update_apply]
    · exact ih _ _ _ _ _ _ h

/-- Whenever `cmalloc` returns, it returns `NULL` and the memory it was given,
or a handle whose chunk header stores the requested size as a `size_t`. -/
theorem cmalloc_result (fuel : Nat) (m : Mem) (block : Nat) (size : Int) (p : Nat) (m1 : Mem)
    (h : cmalloc fuel m block size = some (p, m1)) :
    (p = 0 ∧ m1 = m) ∨ (p ≠ 0 ∧ (m1.nodes (p - SIZEOF_CNODE)).nsize = toSizeT size) := by
  unfold cmalloc at h
  simp only [SIZEOF_CNODE, SIZEOF_CONTIGUOUS] at h ⊢
  split_ifs at h
  · simp only [Option.some.injEq, Prod.mk.injEq] at h
    obtain ⟨rfl, rfl⟩ := h
    right
    refine ⟨by omega, ?_⟩
    simp [Mem.setFirst, Mem.setPrev, Mem.setNsize, Mem.setNext, Mem.setBlock,
      Function.update_apply]
  · simp only [Option.some.injEq, Prod.mk.injEq] at h
    obtain ⟨rfl, rfl⟩ := h
    left; exact ⟨rfl, rfl⟩
  · exact add_node_result _ _ _ _ _ _ _ h

/-- C8, as stated, fails: on a fresh arena of 100 bytes `cmalloc(block, 0)` returns
the handle 4144 and links a chunk with `nsize = 0`, and `cmalloc(block, -1)`
returns the same handle and links a chunk with `nsize = 2^64 - 1`. -/
theorem cmalloc_accepts_nonpositive_size :
    (cmalloc 0 (make_contiguous Mem.zero 4096 100) 4096 0).map
        (fun r => (r.1, chunkList 2 r.2 4096, (r.2.nodes 4112).nsize))
      = some (4144, [4112], 0) ∧
    (cmalloc 0 (make_contiguous Mem.zero 4096 100) 4096 (-1)).map
        (fun r => (r.1, chunkList 2 r.2 4096, (r.2.nodes 4112).nsize))
      = some (4144, [4112], 18446744073709551615) := by
  decide!

/-- C8, amended: `cmalloc` has no invalid-size outcome and accepts a size that is
not positive.  On an empty arena at `block` that has room for a chunk header
below `upper_limit`, for every size from `-32` to `0` whose requirement
`size + 32` is below the gap, `cmalloc(block, size)` returns the handle
`block + 48`, links the header at `block + 16` as the only chunk, and stores the
size converted to `size_t` as its `nsize`: `0` for size `0`, `2^64 + size` for a
negative size. -/
theorem cmalloc_accepts_nonpositive_size_on_empty_arena (fuel : Nat) (m : Mem) (block : Nat)
    (size : Int) (hs : size ≤ 0) (hlo : -(SIZEOF_CNODE : Int) ≤ size)
    (hfirst : (m.blocks block).first = 0)
    (hroom : block + SIZEOF_CONTIGUOUS + SIZEOF_CNODE ≤ (m.blocks block).upper_limit)
    (hup : (m.blocks block).upper_limit < 18446744073709551616)
    (hgap : ((m.blocks block).upper_limit : Int) - ((block + SIZEOF_CONTIGUOUS : Nat) : Int)
      > size + (SIZEOF_CNODE : Int)) :
    ∃ m1, cmalloc fuel m block size = some (block + SIZEOF_CONTIGUOUS + SIZEOF_CNODE, m1) ∧
      chunkList 2 m1 block = [block + SIZEOF_CONTIGUOUS] ∧
      m1.nodes (block + SIZEOF_CONTIGUOUS)
        = { nsize := if size = 0 then 0 else (18446744073709551616 + size).toNat,
            prev := 0, next := 0, block := block } := by
  have k32 : SIZEOF_CNODE = 32 := rfl
  have k16 : SIZEOF_CONTIGUOUS = 16 := rfl
  have hsz := toSizeT_nonpositive size hs (by rw [k32] at hlo; omega)
  have htest : toSizeT (((m.blocks block).upper_limit : Int)
      - ((block + SIZEOF_CONTIGUOUS : Nat) : Int)) > need size := by
    rw [k32] at hlo hgap
    unfold toSizeT need toSizeT SIZEOF_CNODE
    omega
  have hne : block + SIZEOF_CONTIGUOUS ≠ 0 := by omega
  unfold cmalloc
  dsimp only
  rw [if_pos hfirst, if_pos htest, hsz]
  refine ⟨_, rfl, ?_, ?_⟩
  · simp [chunkList, walk, Mem.setFirst, Mem.setPrev, Mem.setNsize, Mem.setNext, Mem.setBlock,
      hne]
  · simp [Mem.setFirst, Mem.setPrev, Mem.setNsize, Mem.setNext, Mem.setBlock]

/-- Instance of the amended C8: size `-1` on a fresh arena of 100 bytes at 4096
returns the handle 4144 of a chunk with `nsize = 2^64 - 1`. -/
theorem cmalloc_accepts_nonpositive_size_on_empty_arena_witness :
    ((-1 : Int) ≤ 0 ∧ -(SIZEOF_CNODE : Int) ≤ -1 ∧
      ((make_contiguous Mem.zero 4096 100).blocks 4096).first = 0 ∧
      4096 + SIZEOF_CONTIGUOUS + SIZEOF_CNODE
        ≤ ((make_contiguous Mem.zero 4096 100).blocks 4096).upper_limit ∧
      ((make_contiguous Mem.zero 4096 100).blocks 4096).upper_limit < 18446744073709551616 ∧
      (((make_contiguous Mem.zero 4096 100).blocks 4096).upper_limit : Int)
        - ((4096 + SIZEOF_CONTIGUOUS : Nat) : Int) > -1 + (SIZEOF_CNODE : Int)) ∧
    ∃ m1, cmalloc 0 (make_contiguous Mem.zero 4096 100) 4096 (-1)
        = some (4096 + SIZEOF_CONTIGUOUS + SIZEOF_CNODE, m1) ∧
      chunkList 2 m1 4096 = [4096 + SIZEOF_CONTIGUOUS] ∧
      m1.nodes (4096 + SIZEOF_CONTIGUOUS)
        = { nsize := if (-1 : Int) = 0 then 0 else (18446744073709551616 + (-1 : Int)).toNat,
            prev := 0, next := 0, block := 4096 } :=
  ⟨⟨by decide, by decide, by decide, by decide, by decide, by decide⟩,
    cmalloc_accepts_nonpositive_size_on_empty_arena 0 (make_contiguous Mem.zero 4096 100) 4096
      (-1) (by decide) (by decide) (by decide) (by decide) (by decide) (by decide)⟩

/-- A size below `-32` has a requirement of at least `2^64 - 2^31 + 32` bytes:
on an empty arena with a gap of at most `2^64 - 2^31` bytes `cmalloc` returns
`NULL` and the memory it was given, the outcome of a request that does not fit. -/
theorem cmalloc_null_below_minus_header (fuel : Nat) (m : Mem) (block : Nat) (size : Int)
    (hs : size < -(SIZEOF_CNODE : Int)) (hlo : -2147483648 ≤ size)
    (hfirst : (m.blocks block).first = 0)
    (hle : block + SIZEOF_CONTIGUOUS ≤ (m.blocks block).upper_limit)
    (hsmall : (m.blocks block).upper_limit - (block + SIZEOF_CONTIGUOUS)
      ≤ 18446744071562067968) :
    cmalloc fuel m block size = some (0, m) := by
  have k32 : SIZEOF_CNODE = 32 := rfl
  have htest : ¬toSizeT (((m.blocks block).upper_limit : Int)
      - ((block + SIZEOF_CONTIGUOUS : Nat) : Int)) > need size := by
    rw [k32] at hs
    unfold toSizeT need toSizeT SIZEOF_CNODE
    omega
  unfold cmalloc
  dsimp only
  rw [if_pos hfirst, if_neg htest]

/-! ## Arenas smaller than 2 GiB

In an arena of at least 16 and fewer than `2^31` bytes the code keeps the arena
well formed and `cmalloc` is first fit. -/

/-- In a range below `2^31` the `int` copy of a gap compares like the gap. -/
theorem gap_test (a b : Nat) (size : Int) (hab : b ≤ a) (hsmall : a - b < 2147483648)
    (h0 : 0 < size) (h1 : size < 2147483648) :
    toSizeT (toInt32 ((a : Int) - (b : Int))) > need size ↔
      (a : Int) - (b : Int) > size + (SIZEOF_CNODE : Int) := by
  unfold toSizeT toInt32 need toSizeT SIZEOF_CNODE
  omega

/-- In a range below `2^31` the `size_t` copy of a gap compares like the gap. -/
theorem gap_test_exact (a b : Nat) (size : Int) (hab : b ≤ a) (hsmall : a - b < 2147483648)
    (h0 : 0 < size) (h1 : size < 2147483648) :
    toSizeT ((a : Int) - (b : Int)) > need size ↔
      (a : Int) - (b : Int) > size + (SIZEOF_CNODE : Int) := by
  unfold toSizeT need toSizeT SIZEOF_CNODE
  omega

/-- A positive `int` keeps its value as a `size_t`. -/
theorem toSizeT_pos (size : Int) (h0 : 0 < size) (h1 : size < 2147483648) :
    (toSizeT size : Int) = size := by
  unfold toSizeT
  omega

/-- Every chunk of a linked list starts at or after the lower bound. -/
theorem Linked.lo_le {m : Mem} {block : Nat} :
    ∀ {l : List Nat} {prev lo : Nat}, Linked m block prev lo l → ∀ a ∈ l, lo ≤ a := by
  intro l
  induction l with
  | nil => intro prev lo _ a ha; simp at ha
  | cons c r ih =>
    intro prev lo h a ha
    obtain ⟨h1, -, -, -, -, h6⟩ := h
    rcases List.mem_cons.mp ha with rfl | ha
    · exact h1
    · have := ih h6 a ha
      unfold chunkEnd SIZEOF_CNODE at this
      omega

/-- Every chunk of a linked list ends at or before `upper_limit`. -/
theorem Linked.end_le {m : Mem} {block : Nat} :
    ∀ {l : List Nat} {prev lo : Nat}, Linked m block prev lo l →
      ∀ a ∈ l, chunkEnd m a ≤ (m.blocks block).upper_limit := by
  intro l
  induction l with
  | nil => intro prev lo _ a ha; simp at ha
  | cons c r ih =>
    intro prev lo h a ha
    obtain ⟨-, -, -, -, h5, h6⟩ := h
    rcases List.mem_cons.mp ha with rfl | ha
    · exact h5
    · exact ih h6 a ha

/-- Linking only depends on the headers of the list and on `upper_limit`. -/
theorem Linked.congr {m m1 : Mem} {block : Nat}
    (hu : (m1.blocks block).upper_limit = (m.blocks block).upper_limit) :
    ∀ {l : List Nat} {prev lo : Nat}, (∀ a ∈ l, m1.nodes a = m.nodes a) →
      Linked m block prev lo l → Linked m1 block prev lo l := by
  intro l
  induction l with
  | nil => intro prev lo _ _; trivial
  | cons c r ih =>
    intro prev lo hn h
    obtain ⟨h1, h2, h3, h4, h5, h6⟩ := h
    have hc : m1.nodes c = m.nodes c := hn c (List.mem_cons_self _ _)
    have he : chunkEnd m1 c = chunkEnd m c := by unfold chunkEnd; rw [hc]
    refine ⟨h1, by rw [hc]; exact h2, by rw [hc]; exact h3, by rw [hc]; exact h4,
      by rw [he, hu]; exact h5, ?_⟩
    rw [he]
    exact ih (fun a ha => hn a (List.mem_cons_of_mem _ ha)) h6

/-- An insertion behind the head gap keeps the head. -/
theorem insertFrom_head (m : Mem) (upper : Nat) (size : Int) (c : Nat) (r : List Nat) :
    (insertFrom m upper size (c :: r)).headD 0 = c := by
  cases r with
  | nil => unfold insertFrom; split_ifs <;> rfl
  | cons d r => unfold insertFrom; split_ifs <;> rfl

/-- A chunk ends after its header. -/
theorem lt_chunkEnd (m : Mem) (n : Nat) : n + 32 ≤ chunkEnd m n := by
  unfold chunkEnd SIZEOF_CNODE; omega

/-- Linking after a chunk `n` has been appended behind the tail `c`. -/
theorem Linked.append_tail {m m1 : Mem} {block prev lo c n : Nat} {size : Int}
    (h0 : 0 < size) (h1 : size < 2147483648)
    (hl : Linked m block prev lo [c]) (hn : n = chunkEnd m c)
    (hfit : ((m.blocks block).upper_limit : Int) - (chunkEnd m c : Int)
      > size + (SIZEOF_CNODE : Int))
    (hB : m1.blocks = m.blocks)
    (hc : m1.nodes c = { m.nodes c with next := n })
    (hnn : m1.nodes n = { nsize := toSizeT size, prev := c, next := 0, block := block }) :
    Linked m1 block prev lo [c, n] := by
  obtain ⟨a1, a2, a3, a4, a5, -⟩ := hl
  have hs := toSizeT_pos size h0 h1
  have k32 : SIZEOF_CNODE = 32 := rfl
  have e1 : chunkEnd m1 c = chunkEnd m c := by simp [chunkEnd, hc]
  have e2 : chunkEnd m1 n = n + SIZEOF_CNODE + toSizeT size := by simp [chunkEnd, hnn]
  have hu : (m1.blocks block).upper_limit = (m.blocks block).upper_limit := by rw [hB]
  refine ⟨a1, by simp [hc, a2], by simp [hc, a3], by simp [hc], by omega,
    by omega, by simp [hnn], by simp [hnn], by simp [hnn], by omega, trivial⟩

/-- Linking after a chunk `n` has been spliced in between `c` and `d`. -/
theorem Linked.insert_mid {m m1 : Mem} {block prev lo c d n : Nat} {r : List Nat}
    {size : Int} (h0 : 0 < size) (h1 : size < 2147483648)
    (hl : Linked m block prev lo (c :: d :: r)) (hn : n = chunkEnd m c)
    (hfit : (d : Int) - (chunkEnd m c : Int) > size + (SIZEOF_CNODE : Int))
    (hB : m1.blocks = m.blocks)
    (hc : m1.nodes c = { m.nodes c with next := n })
    (hnn : m1.nodes n = { nsize := toSizeT size, prev := c, next := d, block := block })
    (hd : m1.nodes d = { m.nodes d with prev := n })
    (ho : ∀ a, a ≠ c → a ≠ n → a ≠ d → m1.nodes a = m.nodes a) :
    Linked m1 block prev lo (c :: n :: d :: r) := by
  obtain ⟨a1, a2, a3, a4, a5, b1, b2, b3, b4, b5, hr⟩ := hl
  have hs := toSizeT_pos size h0 h1
  have k32 : SIZEOF_CNODE = 32 := rfl
  have hrest : ∀ a ∈ r, chunkEnd m d ≤ a := Linked.lo_le hr
  have e1 : chunkEnd m1 c = chunkEnd m c := by simp [chunkEnd, hc]
  have e2 : chunkEnd m1 n = n + SIZEOF_CNODE + toSizeT size := by simp [chunkEnd, hnn]
  have e3 : chunkEnd m1 d = chunkEnd m d := by simp [chunkEnd, hd]
  have hu : (m1.blocks block).upper_limit = (m.blocks block).upper_limit := by rw [hB]
  have l1 := lt_chunkEnd m c
  have l2 := lt_chunkEnd m d
  refine ⟨a1, by simp [hc, a2], by simp [hc, a3], by simp [hc], by omega,
    by omega, by simp [hnn], by simp [hnn], by simp [hnn], by omega, by omega, by simp [hd],
    by simp [hd, b3], by simp [hd, b4], by omega, ?_⟩
  rw [e3]
  refine Linked.congr hu (fun a ha => ?_) hr
  have := hrest a ha
  apply ho <;> omega

/-- With enough fuel, `add_node` started behind the head gap returns the first
fit of the specification and leaves the chunks linked, the new chunk included. -/
theorem add_node_scan {block : Nat} {size : Int} (h0 : 0 < size) (h1 : size < 2147483648)
    (m : Mem) (hsmall : (m.blocks block).upper_limit < block + 2147483648) :
    ∀ (r : List Nat) (c prev lo fuel : Nat), Linked m block prev lo (c :: r) →
      block + SIZEOF_CONTIGUOUS ≤ lo →
      ¬((m.nodes c).prev = 0 ∧
        toSizeT (toInt32 ((c : Int) - ((block + SIZEOF_CONTIGUOUS : Nat) : Int))) > need size) →
      r.length < fuel →
      ∃ m1, add_node fuel m c size block
          = some (firstFitFrom m (m.blocks block).upper_limit size (c :: r), m1) ∧
        m1.blocks = m.blocks ∧ (∀ a, a < c → m1.nodes a = m.nodes a) ∧
        (∀ a, a + SIZEOF_CNODE ≠ firstFitFrom m (m.blocks block).upper_limit size (c :: r) →
          (m1.nodes a).nsize = (m.nodes a).nsize) ∧
        Linked m1 block prev lo (insertFrom m (m.blocks block).upper_limit size (c :: r)) := by
  intro r
  induction r with
  | nil =>
    intro c prev lo fuel hl hlo hhead hfuel
    obtain ⟨f, rfl⟩ : ∃ f, fuel = f + 1 := ⟨fuel - 1, by simp at hfuel; omega⟩
    have hl' := hl
    obtain ⟨a1, a2, a3, a4, a5, -⟩ := hl
    have k32 : SIZEOF_CNODE = 32 := rfl
    have k16 : SIZEOF_CONTIGUOUS = 16 := rfl
    have hend : chunkEnd m c = c + SIZEOF_CNODE + (m.nodes c).nsize := rfl
    have hg := gap_test (m.blocks block).upper_limit (chunkEnd m c) size a5 (by omega) h0 h1
    simp only [List.headD] at a4
    unfold add_node
    simp only [firstFitFrom, insertFrom]
    rw [if_neg hhead, if_pos a4]
    simp only [← hend]
    by_cases hfit : ((m.blocks block).upper_limit : Int) - (chunkEnd m c : Int)
        > size + (SIZEOF_CNODE : Int)
    · rw [if_pos (hg.mpr hfit), if_pos hfit, if_pos hfit]
      refine ⟨_, rfl, ?_, ?_, ?_, ?_⟩
      · simp [Mem.setNext, Mem.setNsize, Mem.setPrev, Mem.setBlock]
      · intro a ha
        have e1 : a ≠ chunkEnd m c := by omega
        have e2 : a ≠ c := by omega
        simp [Mem.setNext, Mem.setNsize, Mem.setPrev, Mem.setBlock, Function.update_apply, e1,
          e2]
      · intro a ha
        have e1 : a ≠ chunkEnd m c := by omega
        simp only [Mem.setNext, Mem.setNsize, Mem.setPrev, Mem.setBlock, Function.update_apply]
        split_ifs with x1 x2 <;> first | rfl | omega | (rw [x2]) | (rw [x1])
      · have e1 : c ≠ chunkEnd m c := by omega
        refine Linked.append_tail h0 h1 hl' rfl hfit ?_ ?_ ?_
        · simp [Mem.setNext, Mem.setNsize, Mem.setPrev, Mem.setBlock]
        · simp [Mem.setNext, Mem.setNsize, Mem.setPrev, Mem.setBlock, Function.update_apply, e1]
        · simp [Mem.setNext, Mem.setNsize, Mem.setPrev, Mem.setBlock, Function.update_apply,
            e1.symm]
    · rw [if_neg (fun h => hfit (hg.mp h)), if_neg hfit, if_neg hfit]
      exact ⟨m, rfl, rfl, fun _ _ => rfl, fun _ _ => rfl, hl'⟩
  | cons d r ih =>
    intro c prev lo fuel hl hlo hhead hfuel
    obtain ⟨f, rfl⟩ : ∃ f, fuel = f + 1 := ⟨fuel - 1, by simp at hfuel; omega⟩
    have hl' := hl
    obtain ⟨a1, a2, a3, a4, a5, hrest⟩ := hl
    have hrest' := hrest
    obtain ⟨b1, b2, b3, b4, b5, hr⟩ := hrest
    have k32 : SIZEOF_CNODE = 32 := rfl
    have k16 : SIZEOF_CONTIGUOUS = 16 := rfl
    have hend : chunkEnd m c = c + SIZEOF_CNODE + (m.nodes c).nsize := rfl
    have l1 := lt_chunkEnd m c
    have l2 := lt_chunkEnd m d
    simp only [List.headD] at a4
    have hdpos : (m.nodes c).next ≠ 0 := by omega
    have hg := gap_test d (chunkEnd m c) size b1 (by omega) h0 h1
    unfold add_node
    simp only [firstFitFrom, insertFrom]
    rw [if_neg hhead, if_neg hdpos, if_pos hdpos]
    simp only [← hend]
    have hcn : c ≠ chunkEnd m c := by omega
    by_cases hfit : (d : Int) - (chunkEnd m c : Int) > size + (SIZEOF_CNODE : Int)
    · rw [a4, if_pos (hg.mpr hfit), if_pos hfit, if_pos hfit]
      have hdn : d ≠ chunkEnd m c := by omega
      have hdc : d ≠ c := by omega
      have hcd : c ≠ d := by omega
      have hnc : chunkEnd m c ≠ c := by omega
      have hnd : chunkEnd m c ≠ d := by omega
      refine ⟨_, rfl, ?_, ?_, ?_, ?_⟩
      · simp [Mem.setNext, Mem.setNsize, Mem.setPrev, Mem.setBlock]
      · intro a ha
        have e1 : a ≠ chunkEnd m c := by omega
        have e2 : a ≠ c := by omega
        have e3 : a ≠ d := by omega
        simp [Mem.setNext, Mem.setNsize, Mem.setPrev, Mem.setBlock, Function.update_apply, e1,
          e2, e3, hcn, hdn, hdc, hcd, hnc, hnd, a4]
      · intro a ha
        have e1 : a ≠ chunkEnd m c := by omega
        by_cases x2 : a = c
        · subst x2
          simp [Mem.setNext, Mem.setNsize, Mem.setPrev, Mem.setBlock, Function.update_apply,
            hcn, hdn, hdc, hcd, hnc, hnd, a4]
        · by_cases x3 : a = d
          · subst x3
            simp [Mem.setNext, Mem.setNsize, Mem.setPrev, Mem.setBlock, Function.update_apply,
              hcn, hdn, hdc, hcd, hnc, hnd, a4, x2]
          · simp [Mem.setNext, Mem.setNsize, Mem.setPrev, Mem.setBlock, Function.update_apply,
              hcn, hdn, hdc, hcd, hnc, hnd, a4, e1, x2, x3]
      · refine Linked.insert_mid h0 h1 hl' rfl hfit ?_ ?_ ?_ ?_ ?_
        · simp [Mem.setNext, Mem.setNsize, Mem.setPrev, Mem.setBlock]
        · simp [Mem.setNext, Mem.setNsize, Mem.setPrev, Mem.setBlock, Function.update_apply,
            hcn, hdn, hdc, hcd, hnc, hnd, a4]
        · simp [Mem.setNext, Mem.setNsize, Mem.setPrev, Mem.setBlock, Function.update_apply,
            hcn, hdn, hdc, hcd, hnc, hnd, hcn.symm, hdn.symm, a4]
        · simp [Mem.setNext, Mem.setNsize, Mem.setPrev, Mem.setBlock, Function.update_apply,
            hcn, hdn, hdc, hcd, hnc, hnd, hcn.symm, hdn.symm, a4]
        · intro a x1 x2 x3
          simp [Mem.setNext, Mem.setNsize, Mem.setPrev, Mem.setBlock, Function.update_apply,
            hcn, hdn, hdc, hcd, hnc, hnd, x1, x2, x3, a4]
    · rw [a4, if_neg (fun h => hfit (hg.mp h)), if_neg hfit, if_neg hfit]
      have hhd : ¬((m.nodes d).prev = 0 ∧
          toSizeT (toInt32 ((d : Int) - ((block + SIZEOF_CONTIGUOUS : Nat) : Int)))
            > need size) := by
        intro h; omega
      obtain ⟨m1, e, hB, hfr, hns, hL⟩ :=
        ih d c (chunkEnd m c) f hrest' (by omega) hhd (by simpa using hfuel)
      have hc1 : m1.nodes c = m.nodes c := hfr c (by omega)
      have e1 : chunkEnd m1 c = chunkEnd m c := by simp [chunkEnd, hc1]
      refine ⟨m1, e, hB, fun a ha => hfr a (by omega), hns, ?_⟩
      refine ⟨a1, by rw [hc1]; exact a2, by rw [hc1]; exact a3, ?_, by rw [e1, hB]; exact a5,
        by rw [e1]; exact hL⟩
      rw [hc1, a4, insertFrom_head]

/-- Linking after a chunk `n` has been put in front of the head `c`. -/
theorem Linked.insert_head {m m1 : Mem} {block c n : Nat} {r : List Nat}
    {size : Int} (h0 : 0 < size) (h1 : size < 2147483648)
    (hl : Linked m block 0 n (c :: r))
    (hfit : (c : Int) - (n : Int) > size + (SIZEOF_CNODE : Int))
    (hu : (m1.blocks block).upper_limit = (m.blocks block).upper_limit)
    (hnn : m1.nodes n = { nsize := toSizeT size, prev := 0, next := c, block := block })
    (hc : m1.nodes c = { m.nodes c with prev := n })
    (ho : ∀ a, a ≠ c → a ≠ n → m1.nodes a = m.nodes a) :
    Linked m1 block 0 n (n :: c :: r) := by
  obtain ⟨a1, a2, a3, a4, a5, hr⟩ := hl
  have hs := toSizeT_pos size h0 h1
  have k32 : SIZEOF_CNODE = 32 := rfl
  have hrest : ∀ a ∈ r, chunkEnd m c ≤ a := Linked.lo_le hr
  have e2 : chunkEnd m1 n = n + SIZEOF_CNODE + toSizeT size := by simp [chunkEnd, hnn]
  have e3 : chunkEnd m1 c = chunkEnd m c := by simp [chunkEnd, hc]
  have l1 := lt_chunkEnd m c
  refine ⟨le_refl _, by simp [hnn], by simp [hnn], by simp [hnn], by omega, by omega,
    by simp [hc], by simp [hc, a3], by simp [hc, a4], by omega, ?_⟩
  rw [e3]
  refine Linked.congr hu (fun a ha => ?_) hr
  have := hrest a ha
  apply ho <;> omega

/-- In a well-formed arena smaller than `2^31` bytes, `cmalloc` with a positive
size and fuel for every chunk returns the first fit of the specification and
leaves the arena well formed, with the new chunk in its place. -/
theorem cmalloc_wf {m : Mem} {block : Nat} {l : List Nat} {size : Int} (fuel : Nat)
    (hwf : WF m block l) (h0 : 0 < size) (h1 : size < 2147483648)
    (hfuel : l.length ≤ fuel) :
    ∃ m1, cmalloc fuel m block size = some (firstFitSpec m block size l, m1) ∧
      (m1.blocks block).upper_limit = (m.blocks block).upper_limit ∧
      (∀ a, a + SIZEOF_CNODE ≠ firstFitSpec m block size l →
        (m1.nodes a).nsize = (m.nodes a).nsize) ∧
      WF m1 block (insertSpec m block size l) := by
  obtain ⟨hfirst, hlower, hsmall, hlinked⟩ := hwf
  have k32 : SIZEOF_CNODE = 32 := rfl
  have k16 : SIZEOF_CONTIGUOUS = 16 := rfl
  cases l with
  | nil =>
    simp only [List.headD] at hfirst
    have hg := gap_test_exact (m.blocks block).upper_limit (block + SIZEOF_CONTIGUOUS) size
      hlower (by omega) h0 h1
    unfold cmalloc
    simp only [firstFitSpec, insertSpec]
    rw [if_pos hfirst]
    by_cases hfit : ((m.blocks block).upper_limit : Int)
        - ((block + SIZEOF_CONTIGUOUS : Nat) : Int) > size + (SIZEOF_CNODE : Int)
    · rw [if_pos (hg.mpr hfit), if_pos hfit, if_pos hfit]
      have hs := toSizeT_pos size h0 h1
      refine ⟨_, rfl, ?_, ?_, ?_, ?_, ?_, ?_⟩
      · simp [Mem.setNext, Mem.setNsize, Mem.setPrev, Mem.setBlock, Mem.setFirst]
      · intro a ha
        have e1 : a ≠ block + SIZEOF_CONTIGUOUS := by omega
        simp [Mem.setNext, Mem.setNsize, Mem.setPrev, Mem.setBlock, Mem.setFirst,
          Function.update_apply, e1]
      · simp [Mem.setNext, Mem.setNsize, Mem.setPrev, Mem.setBlock, Mem.setFirst]
      · simpa [Mem.setNext, Mem.setNsize, Mem.setPrev, Mem.setBlock, Mem.setFirst] using hlower
      · simpa [Mem.setNext, Mem.setNsize, Mem.setPrev, Mem.setBlock, Mem.setFirst] using hsmall
      · refine ⟨le_refl _, ?_, ?_, ?_, ?_, trivial⟩
        · simp [Mem.setNext, Mem.setNsize, Mem.setPrev, Mem.setBlock, Mem.setFirst]
        · simp [Mem.setNext, Mem.setNsize, Mem.setPrev, Mem.setBlock, Mem.setFirst]
        · simp [Mem.setNext, Mem.setNsize, Mem.setPrev, Mem.setBlock, Mem.setFirst]
        · simp [chunkEnd, Mem.setNext, Mem.setNsize, Mem.setPrev, Mem.setBlock, Mem.setFirst]
          omega
    · rw [if_neg (fun h => hfit (hg.mp h)), if_neg hfit, if_neg hfit]
      exact ⟨m, rfl, rfl, fun _ _ => rfl, hfirst, hlower, hsmall, trivial⟩
  | cons c r =>
    simp only [List.headD] at hfirst
    have hl' := hlinked
    obtain ⟨a1, a2, a3, a4, a5, hr⟩ := hlinked
    have l1 := lt_chunkEnd m c
    have hc0 : (m.blocks block).first ≠ 0 := by omega
    have hg := gap_test c (block + SIZEOF_CONTIGUOUS) size a1 (by omega) h0 h1
    obtain ⟨f, rfl⟩ : ∃ f, fuel = f + 1 := ⟨fuel - 1, by simp at hfuel; omega⟩
    unfold cmalloc
    simp only [firstFitSpec, insertSpec]
    rw [if_neg hc0, hfirst]
    by_cases hfit : (c : Int) - ((block + SIZEOF_CONTIGUOUS : Nat) : Int)
        > size + (SIZEOF_CNODE : Int)
    · rw [if_pos hfit, if_pos hfit]
      unfold add_node
      rw [if_pos ⟨a2, hg.mpr hfit⟩]
      have hnc : block + SIZEOF_CONTIGUOUS ≠ c := by omega
      have hcn : c ≠ block + SIZEOF_CONTIGUOUS := by omega
      refine ⟨_, rfl, ?_, ?_, ?_, ?_, ?_, ?_⟩
      · simp [Mem.setNext, Mem.setNsize, Mem.setPrev, Mem.setBlock, Mem.setFirst]
      · intro a ha
        have e1 : a ≠ block + SIZEOF_CONTIGUOUS := by omega
        by_cases x : a = c
        · subst x
          simp [Mem.setNext, Mem.setNsize, Mem.setPrev, Mem.setBlock, Mem.setFirst,
            Function.update_apply, hcn]
        · simp [Mem.setNext, Mem.setNsize, Mem.setPrev, Mem.setBlock, Mem.setFirst,
            Function.update_apply, e1, x]
      · simp [Mem.setNext, Mem.setNsize, Mem.setPrev, Mem.setBlock, Mem.setFirst]
      · simpa [Mem.setNext, Mem.setNsize, Mem.setPrev, Mem.setBlock, Mem.setFirst] using hlower
      · simpa [Mem.setNext, Mem.setNsize, Mem.setPrev, Mem.setBlock, Mem.setFirst] using hsmall
      · refine Linked.insert_head h0 h1 hl' hfit ?_ ?_ ?_ ?_
        · simp [Mem.setNext, Mem.setNsize, Mem.setPrev, Mem.setBlock, Mem.setFirst]
        · simp [Mem.setNext, Mem.setNsize, Mem.setPrev, Mem.setBlock, Mem.setFirst,
            Function.update_apply, hnc, hcn]
        · simp [Mem.setNext, Mem.setNsize, Mem.setPrev, Mem.setBlock, Mem.setFirst,
            Function.update_apply, hnc, hcn]
        · intro a x1 x2
          simp [Mem.setNext, Mem.setNsize, Mem.setPrev, Mem.setBlock, Mem.setFirst,
            Function.update_apply, x1, x2]
    · rw [if_neg hfit, if_neg hfit]
      have hhead : ¬((m.nodes c).prev = 0 ∧
          toSizeT (toInt32 ((c : Int) - ((block + SIZEOF_CONTIGUOUS : Nat) : Int)))
            > need size) := fun h => hfit (hg.mp h.2)
      obtain ⟨m1, e, hB, hfr, hns, hL⟩ :=
        add_node_scan h0 h1 m hsmall r c 0 (block + SIZEOF_CONTIGUOUS) (f + 1) hl' (le_refl _)
          hhead (by simpa [Nat.lt_succ_iff] using hfuel)
      refine ⟨m1, e, by rw [hB], hns, ?_, by rw [hB]; exact hlower, by rw [hB]; exact hsmall,
        hL⟩
      rw [hB, hfirst, insertFrom_head]

/-- In a linked list the `prev` of a chunk is the predecessor of the list or a
chunk of the list. -/
theorem Linked.prev_bound {m : Mem} {block c : Nat} :
    ∀ {l : List Nat} {prev lo : Nat}, Linked m block prev lo l → c ∈ l →
      (m.nodes c).prev = prev ∨ lo ≤ (m.nodes c).prev := by
  intro l
  induction l with
  | nil => intro prev lo _ hc; simp at hc
  | cons x r ih =>
    intro prev lo h hc
    obtain ⟨h1, h2, -, -, -, h6⟩ := h
    rcases List.mem_cons.mp hc with rfl | hc
    · exact Or.inl h2
    · have l1 := lt_chunkEnd m x
      rcases ih h6 hc with h | h
      · right; omega
      · right; omega

/-- In a linked list the `next` of a chunk is `NULL` or lies behind the chunk. -/
theorem Linked.next_bound {m : Mem} {block c : Nat} :
    ∀ {l : List Nat} {prev lo : Nat}, Linked m block prev lo l → c ∈ l →
      (m.nodes c).next = 0 ∨ chunkEnd m c ≤ (m.nodes c).next := by
  intro l
  induction l with
  | nil => intro prev lo _ hc; simp at hc
  | cons x r ih =>
    intro prev lo h hc
    obtain ⟨-, -, -, h4, -, h6⟩ := h
    rcases List.mem_cons.mp hc with rfl | hc
    · cases r with
      | nil => exact Or.inl h4
      | cons d r => right; rw [h4]; exact h6.1
    · exact ih h6 hc

/-- Every chunk of a linked list carries the arena in its `block` field. -/
theorem Linked.block_eq {m : Mem} {block c : Nat} :
    ∀ {l : List Nat} {prev lo : Nat}, Linked m block prev lo l → c ∈ l →
      (m.nodes c).block = block := by
  intro l
  induction l with
  | nil => intro prev lo _ hc; simp at hc
  | cons x r ih =>
    intro prev lo h hc
    obtain ⟨-, -, h3, -, -, h6⟩ := h
    rcases List.mem_cons.mp hc with rfl | hc
    · exact h3
    · exact ih h6 hc

/-- Linking after the chunk `c` has been unlinked: its predecessor `P` points
to its successor `N` and back. -/
theorem Linked.unlink {m m1 : Mem} {block c : Nat}
    (hu : (m1.blocks block).upper_limit = (m.blocks block).upper_limit)
    (ho : ∀ a, a ≠ c → a ≠ (m.nodes c).prev → a ≠ (m.nodes c).next →
      m1.nodes a = m.nodes a)
    (hP : (m.nodes c).prev ≠ 0 →
      m1.nodes (m.nodes c).prev = { m.nodes (m.nodes c).prev with next := (m.nodes c).next })
    (hN : (m.nodes c).next ≠ 0 →
      m1.nodes (m.nodes c).next = { m.nodes (m.nodes c).next with prev := (m.nodes c).prev }) :
    ∀ {l : List Nat} {prev lo : Nat}, Linked m block prev lo l → prev < lo → c ∈ l →
      Linked m1 block prev lo (l.erase c) := by
  intro l
  induction l with
  | nil => intro prev lo _ _ hc; simp at hc
  | cons x r ih =>
    intro prev lo h hlt hc
    have h' := h
    obtain ⟨h1, h2, h3, h4, h5, h6⟩ := h
    have lx := lt_chunkEnd m x
    by_cases hx : x = c
    · subst hx
      rw [List.erase_cons_head]
      cases r with
      | nil => trivial
      | cons d r =>
        simp only [List.headD] at h4
        obtain ⟨b1, b2, b3, b4, b5, hr⟩ := h6
        have ld := lt_chunkEnd m d
        have hrest : ∀ a ∈ r, chunkEnd m d ≤ a := Linked.lo_le hr
        have hd0 : (m.nodes x).next ≠ 0 := by omega
        have hNd := hN hd0
        rw [h4] at hNd
        have e3 : chunkEnd m1 d = chunkEnd m d := by simp [chunkEnd, hNd]
        refine ⟨by omega, by simp [hNd, h2], by simp [hNd, b3], by simp [hNd, b4],
          by omega, ?_⟩
        rw [e3]
        refine Linked.congr hu (fun a ha => ?_) hr
        have := hrest a ha
        apply ho <;> omega
    · have hcr : c ∈ r := by
        rcases List.mem_cons.mp hc with h | h
        · exact absurd h.symm hx
        · exact h
      have hxc : ¬(x == c) = true := by simpa using hx
      rw [List.erase_cons_tail hxc]
      have hrec := ih h6 (by omega) hcr
      have hcge : chunkEnd m x ≤ c := Linked.lo_le h6 c hcr
      have hNb := Linked.next_bound h6 hcr
      have lc := lt_chunkEnd m c
      have hxN : x ≠ (m.nodes c).next := by omega
      cases r with
      | nil => simp at hcr
      | cons y r =>
        simp only [List.headD] at h4
        obtain ⟨b1, b2, b3, b4, b5, hr⟩ := h6
        by_cases hy : y = c
        · subst hy
          have hPx : (m.nodes y).prev ≠ 0 := by omega
          have hxr := hP hPx
          rw [b2] at hxr
          have e1 : chunkEnd m1 x = chunkEnd m x := by simp [chunkEnd, hxr]
          rw [List.erase_cons_head] at hrec ⊢
          refine ⟨h1, by simp [hxr, h2], by simp [hxr, h3], ?_, by omega,
            by rw [e1]; exact hrec⟩
          simp [hxr, b4]
        · have hyc : ¬(y == c) = true := by simpa using hy
          have hcr' : c ∈ r := by
            rcases List.mem_cons.mp hcr with h | h
            · exact absurd h.symm hy
            · exact h
          have ly := lt_chunkEnd m y
          have hPb := Linked.prev_bound hr hcr'
          have hxP : x ≠ (m.nodes c).prev := by omega
          have hxr : m1.nodes x = m.nodes x := ho x hx hxP hxN
          have e1 : chunkEnd m1 x = chunkEnd m x := by simp [chunkEnd, hxr]
          rw [List.erase_cons_tail hyc] at hrec ⊢
          refine ⟨h1, by rw [hxr]; exact h2, by rw [hxr]; exact h3, ?_, by omega,
            by rw [e1]; exact hrec⟩
          rw [hxr, h4]; rfl

/-- In a linked list the `prev` of a chunk lies before the chunk. -/
theorem Linked.prev_lt {m : Mem} {block c : Nat} :
    ∀ {l : List Nat} {prev lo : Nat}, Linked m block prev lo l → prev < lo → c ∈ l →
      (m.nodes c).prev < c := by
  intro l
  induction l with
  | nil => intro prev lo _ _ hc; simp at hc
  | cons x r ih =>
    intro prev lo h hlt hc
    obtain ⟨h1, h2, -, -, -, h6⟩ := h
    have lx := lt_chunkEnd m x
    rcases List.mem_cons.mp hc with rfl | hc
    · omega
    · exact ih h6 (by omega) hc

/-- Only the head of a linked list has the predecessor of the list as `prev`. -/
theorem Linked.prev_eq_iff {m : Mem} {block c x prev lo : Nat} {r : List Nat}
    (h : Linked m block prev lo (x :: r)) (hlt : prev < lo) (hc : c ∈ x :: r) :
    (m.nodes c).prev = prev ↔ c = x := by
  obtain ⟨h1, h2, -, -, -, h6⟩ := h
  have lx := lt_chunkEnd m x
  constructor
  · intro hp
    rcases List.mem_cons.mp hc with h | hc
    · exact h
    · rcases Linked.prev_bound h6 hc with hb | hb <;> omega
  · rintro rfl; exact h2

/-- A store to `first` changes no `upper_limit`. -/
theorem Mem.setFirst_upper (m : Mem) (b v a : Nat) :
    ((m.setFirst b v).blocks a).upper_limit = (m.blocks a).upper_limit := by
  simp only [Mem.setFirst, Function.update_apply]
  split_ifs with h
  · subst h; rfl
  · rfl

/-- A store to `prev` changes no `nsize`. -/
theorem Mem.setPrev_nsize (m : Mem) (n v a : Nat) :
    ((m.setPrev n v).nodes a).nsize = (m.nodes a).nsize := by
  simp only [Mem.setPrev, Function.update_apply]
  split_ifs with h
  · subst h; rfl
  · rfl

/-- A store to `next` changes no `nsize`. -/
theorem Mem.setNext_nsize (m : Mem) (n v a : Nat) :
    ((m.setNext n v).nodes a).nsize = (m.nodes a).nsize := by
  simp only [Mem.setNext, Function.update_apply]
  split_ifs with h
  · subst h; rfl
  · rfl

/-- The stores of `cfree` change no `upper_limit` and no `nsize`. -/
theorem cfree_frame (m : Mem) (p : Nat) :
    (∀ b, ((cfree m p).blocks b).upper_limit = (m.blocks b).upper_limit) ∧
      ∀ a, ((cfree m p).nodes a).nsize = (m.nodes a).nsize := by
  have e1 : ∀ (m : Mem) (b v : Nat), (m.setFirst b v).nodes = m.nodes := fun _ _ _ => rfl
  have e2 : ∀ (m : Mem) (b v : Nat), (m.setPrev b v).blocks = m.blocks := fun _ _ _ => rfl
  have e3 : ∀ (m : Mem) (b v : Nat), (m.setNext b v).blocks = m.blocks := fun _ _ _ => rfl
  unfold cfree
  dsimp only
  split_ifs
  · exact ⟨fun _ => rfl, fun _ => rfl⟩
  all_goals
    constructor
    · intro b
      simp only [e2, e3, Mem.setFirst_upper]
    · intro a
      simp only [e1, Mem.setPrev_nsize, Mem.setNext_nsize]

/-- In a well-formed arena, `cfree` on the handle of a chunk of the list leaves
the arena well formed with that chunk erased from the list. -/
theorem cfree_wf {m : Mem} {block c : Nat} {l : List Nat}
    (hwf : WF m block l) (hc : c ∈ l) :
    WF (cfree m (c + SIZEOF_CNODE)) block (l.erase c) := by
  obtain ⟨hfirst, hlower, hsmall, hlinked⟩ := hwf
  have k32 : SIZEOF_CNODE = 32 := rfl
  have k16 : SIZEOF_CONTIGUOUS = 16 := rfl
  have hlt : 0 < block + SIZEOF_CONTIGUOUS := by omega
  have hblock := Linked.block_eq hlinked hc
  have hPlt := Linked.prev_lt hlinked hlt hc
  have hNb := Linked.next_bound hlinked hc
  have lc := lt_chunkEnd m c
  have hfr := cfree_frame m (c + SIZEOF_CNODE)
  have hu := hfr.1 block
  have hp0 : c + SIZEOF_CNODE ≠ 0 := by omega
  have hpc : c + SIZEOF_CNODE - SIZEOF_CNODE = c := by omega
  have hcP : c ≠ (m.nodes c).prev := by omega
  have hcN : c ≠ (m.nodes c).next := by omega
  have hPN : (m.nodes c).next ≠ 0 → (m.nodes c).prev ≠ (m.nodes c).next := by omega
  -- the head of the list
  have hhead : (m.nodes c).prev = 0 ↔ l.headD 0 = c := by
    cases l with
    | nil => simp at hc
    | cons x r =>
      rw [Linked.prev_eq_iff hlinked hlt hc]
      simp only [List.headD]
      exact eq_comm
  have hnext_head : l.headD 0 = c → (m.nodes c).next = (l.erase c).headD 0 := by
    cases l with
    | nil => simp at hc
    | cons x r =>
      simp only [List.headD]
      rintro rfl
      rw [List.erase_cons_head]
      exact hlinked.2.2.2.1
  have herase_head : l.headD 0 ≠ c → (l.erase c).headD 0 = l.headD 0 := by
    cases l with
    | nil => simp at hc
    | cons x r =>
      simp only [List.headD]
      intro hx
      have hxc : ¬(x == c) = true := by simpa using hx
      rw [List.erase_cons_tail hxc]
  refine ⟨?_, by rw [hu]; exact hlower, by rw [hu]; exact hsmall, ?_⟩
  · -- `block->first`
    unfold cfree
    rw [if_neg hp0]
    dsimp only
    rw [hpc, hblock]
    by_cases hN : (m.nodes c).next = 0
    · by_cases hP : (m.nodes c).prev = 0
      · rw [if_pos ⟨hN, hP⟩, ← hnext_head (hhead.mp hP), hN]
        simp [Mem.setFirst]
      · rw [if_neg (fun h => hP h.2), if_pos hN, herase_head (fun h => hP (hhead.mpr h))]
        exact hfirst
    · by_cases hP : (m.nodes c).prev = 0
      · rw [if_neg (fun h => hN h.1), if_neg hN, if_pos ⟨hP, hN⟩, ← hnext_head (hhead.mp hP)]
        simp [Mem.setFirst, Mem.setPrev, Mem.setNext]
      · rw [if_neg (fun h => hN h.1), if_neg hN, if_neg (fun h => hP h.1),
          herase_head (fun h => hP (hhead.mpr h))]
        exact hfirst
  · -- the links
    refine Linked.unlink hu ?_ ?_ ?_ hlinked hlt hc
    · intro a x1 x2 x3
      unfold cfree
      rw [if_neg hp0]
      dsimp only
      rw [hpc]
      split_ifs <;>
        simp [Mem.setFirst, Mem.setPrev, Mem.setNext, Function.update_apply, x1, x2, x3,
          hcP, hcP.symm]
    · intro hP
      unfold cfree
      rw [if_neg hp0]
      dsimp only
      rw [hpc]
      by_cases hN : (m.nodes c).next = 0
      · rw [if_neg (fun h => hP h.2), if_pos hN, hN]
        simp [Mem.setPrev, Mem.setNext, Function.update_apply, hcP, hcP.symm]
      · rw [if_neg (fun h => hN h.1), if_neg hN, if_neg (fun h => hP h.1)]
        simp [Mem.setPrev, Mem.setNext, Function.update_apply, hcP, hcP.symm, hPN hN]
    · intro hN
      unfold cfree
      rw [if_neg hp0]
      dsimp only
      rw [hpc]
      by_cases hP : (m.nodes c).prev = 0
      · rw [if_neg (fun h => hN h.1), if_neg hN, if_pos ⟨hP, hN⟩]
        simp [Mem.setFirst, Mem.setPrev, Mem.setNext, Function.update_apply, hcN, hcN.symm, hP]
      · rw [if_neg (fun h => hN h.1), if_neg hN, if_neg (fun h => hP h.1)]
        simp [Mem.setPrev, Mem.setNext, Function.update_apply, hcP, hcP.symm, hcN, hcN.symm,
          hPN hN, (hPN hN).symm]

/-- Reading a linked list from its head via `next` gives the list. -/
theorem Linked.walk_eq {m : Mem} {block : Nat} :
    ∀ {l : List Nat} {prev lo : Nat}, Linked m block prev lo l → 0 < lo →
      ∀ fuel, l.length < fuel → walk fuel m (l.headD 0) = l := by
  intro l
  induction l with
  | nil =>
    intro prev lo _ _ fuel hf
    cases fuel with
    | zero => simp at hf
    | succ f => simp [walk]
  | cons c r ih =>
    intro prev lo h hlo fuel hf
    obtain ⟨h1, -, -, h4, -, h6⟩ := h
    have lc := lt_chunkEnd m c
    cases fuel with
    | zero => simp at hf
    | succ f =>
      have hc0 : c ≠ 0 := by omega
      simp only [List.headD, walk, if_neg hc0]
      rw [h4, ih h6 (by omega) f (by simpa using hf)]

/-- The headers of a linked list are at strictly increasing addresses. -/
theorem Linked.ascending_true {m : Mem} {block : Nat} :
    ∀ {l : List Nat} {prev lo : Nat}, Linked m block prev lo l → ascending l = true := by
  intro l
  induction l with
  | nil => intro _ _ _; rfl
  | cons c r ih =>
    intro prev lo h
    obtain ⟨-, -, -, -, -, h6⟩ := h
    cases r with
    | nil => rfl
    | cons d r =>
      have lc := lt_chunkEnd m c
      have hd := h6.1
      simp only [Contiguous.ascending, Bool.and_eq_true, decide_eq_true_eq]
      exact ⟨by omega, ih h6⟩

/-- The chunks of a linked list do not overlap. -/
theorem Linked.noOverlap_true {m : Mem} {block : Nat} :
    ∀ {l : List Nat} {prev lo : Nat}, Linked m block prev lo l → noOverlap m l = true := by
  intro l
  induction l with
  | nil => intro _ _ _; rfl
  | cons c r ih =>
    intro prev lo h
    obtain ⟨-, -, -, -, -, h6⟩ := h
    cases r with
    | nil => rfl
    | cons d r =>
      simp only [Contiguous.noOverlap, Bool.and_eq_true, decide_eq_true_eq]
      exact ⟨h6.1, ih h6⟩

/-- The chunks of a well-formed arena lie inside the arena. -/
theorem WF.contained_true {m : Mem} {block : Nat} {l : List Nat} (h : WF m block l) :
    contained m block l = true := by
  unfold Contiguous.contained
  rw [List.all_eq_true]
  intro a ha
  simp only [Bool.and_eq_true, decide_eq_true_eq]
  exact ⟨Linked.lo_le h.linked a ha, Linked.end_le h.linked a ha⟩

/-- The chunk list of a well-formed arena, read with enough fuel, is its list. -/
theorem WF.chunkList_eq {m : Mem} {block : Nat} {l : List Nat} (h : WF m block l)
    (fuel : Nat) (hf : l.length < fuel) : chunkList fuel m block = l := by
  unfold chunkList
  rw [h.first]
  exact Linked.walk_eq h.linked (by unfold SIZEOF_CONTIGUOUS; omega) fuel hf

/-- More fuel does not change what `add_node` returns. -/
theorem add_node_mono :
    ∀ (fuel : Nat) (m : Mem) (node : Nat) (size : Int) (block : Nat) (x : Nat × Mem),
      add_node fuel m node size block = some x →
        add_node (fuel + 1) m node size block = some x := by
  intro fuel
  induction fuel with
  | zero => intro m node size block x h; simp [add_node] at h
  | succ k ih =>
    intro m node size block x h
    rw [add_node] at h ⊢
    dsimp only at h ⊢
    split_ifs at h ⊢
    · exact h
    · exact h
    · exact h
    · exact h
    · exact ih _ _ _ _ _ h

/-- More fuel does not change what `add_node` returns. -/
theorem add_node_mono_le {fuel fuel1 : Nat} (hle : fuel ≤ fuel1) (m : Mem) (node : Nat)
    (size : Int) (block : Nat) (x : Nat × Mem)
    (h : add_node fuel m node size block = some x) :
    add_node fuel1 m node size block = some x := by
  induction hle with
  | refl => exact h
  | step _ ih => exact add_node_mono _ _ _ _ _ _ ih

/-- More fuel does not change what `cmalloc` returns. -/
theorem cmalloc_mono_le {fuel fuel1 : Nat} (hle : fuel ≤ fuel1) (m : Mem) (block : Nat)
    (size : Int) (x : Nat × Mem) (h : cmalloc fuel m block size = some x) :
    cmalloc fuel1 m block size = some x := by
  unfold cmalloc at h ⊢
  dsimp only at h ⊢
  split_ifs at h ⊢
  · exact h
  · exact h
  · exact add_node_mono_le hle _ _ _ _ _ h

/-- When the first fit behind the head gap is `NULL` the list stays as it is. -/
theorem insertFrom_of_null (m : Mem) (upper : Nat) (size : Int) :
    ∀ l : List Nat, firstFitFrom m upper size l = 0 → insertFrom m upper size l = l := by
  intro l
  induction l with
  | nil => intro _; rfl
  | cons c r ih =>
    cases r with
    | nil =>
      intro h
      simp only [firstFitFrom, insertFrom] at h ⊢
      split_ifs at h ⊢ with hf
      · unfold SIZEOF_CNODE at h; omega
      · rfl
    | cons d r =>
      intro h
      simp only [firstFitFrom, insertFrom] at h ⊢
      split_ifs at h ⊢ with hf
      · unfold SIZEOF_CNODE at h; omega
      · rw [ih h]

/-- When the first fit behind the head gap is a handle, the new list is the old
one and the header of that handle. -/
theorem insertFrom_perm (m : Mem) (upper : Nat) (size : Int) :
    ∀ l : List Nat, firstFitFrom m upper size l ≠ 0 →
      (insertFrom m upper size l).Perm ((firstFitFrom m upper size l - SIZEOF_CNODE) :: l) := by
  intro l
  induction l with
  | nil => intro h; simp [firstFitFrom] at h
  | cons c r ih =>
    cases r with
    | nil =>
      intro h
      simp only [firstFitFrom, insertFrom] at h ⊢
      split_ifs at h ⊢ with hf
      · rw [Nat.add_sub_cancel]
        exact List.Perm.swap _ _ _
      · exact absurd rfl h
    | cons d r =>
      intro h
      simp only [firstFitFrom, insertFrom] at h ⊢
      split_ifs at h ⊢ with hf
      · rw [Nat.add_sub_cancel]
        exact List.Perm.swap _ _ _
      · exact ((ih h).cons c).trans (List.Perm.swap _ _ _)

/-- When the first fit is `NULL` the list stays as it is. -/
theorem insertSpec_of_null (m : Mem) (block : Nat) (size : Int) (l : List Nat)
    (h : firstFitSpec m block size l = 0) : insertSpec m block size l = l := by
  cases l with
  | nil =>
    simp only [firstFitSpec, insertSpec] at h ⊢
    split_ifs at h ⊢ with hf
    · unfold SIZEOF_CNODE at h; omega
    · rfl
  | cons c r =>
    simp only [firstFitSpec, insertSpec] at h ⊢
    split_ifs at h ⊢ with hf
    · unfold SIZEOF_CNODE at h; omega
    · exact insertFrom_of_null _ _ _ _ h

/-- When the first fit is a handle, the new list is the old one and the header
of that handle. -/
theorem insertSpec_perm (m : Mem) (block : Nat) (size : Int) (l : List Nat)
    (h : firstFitSpec m block size l ≠ 0) :
    (insertSpec m block size l).Perm ((firstFitSpec m block size l - SIZEOF_CNODE) :: l) := by
  cases l with
  | nil =>
    simp only [firstFitSpec, insertSpec] at h ⊢
    split_ifs at h ⊢ with hf
    · rw [Nat.add_sub_cancel]
    · exact absurd rfl h
  | cons c r =>
    simp only [firstFitSpec, insertSpec] at h ⊢
    split_ifs at h ⊢ with hf
    · rw [Nat.add_sub_cancel]
    · exact insertFrom_perm _ _ _ _ h

/-- A handle is `NULL` or lies at least one header above address 0. -/
theorem firstFitSpec_ge (m : Mem) (block : Nat) (size : Int) (l : List Nat)
    (h : firstFitSpec m block size l ≠ 0) : SIZEOF_CNODE ≤ firstFitSpec m block size l := by
  have hfrom : ∀ l : List Nat, firstFitFrom m (m.blocks block).upper_limit size l ≠ 0 →
      SIZEOF_CNODE ≤ firstFitFrom m (m.blocks block).upper_limit size l := by
    intro l
    induction l with
    | nil => intro h; simp [firstFitFrom] at h
    | cons c r ih =>
      cases r with
      | nil =>
        intro h
        simp only [firstFitFrom] at h ⊢
        split_ifs at h ⊢ with hf
        · omega
        · exact absurd rfl h
      | cons d r =>
        intro h
        simp only [firstFitFrom] at h ⊢
        split_ifs at h ⊢ with hf
        · omega
        · exact ih h
  cases l with
  | nil =>
    simp only [firstFitSpec] at h ⊢
    split_ifs at h ⊢ with hf
    · omega
    · exact absurd rfl h
  | cons c r =>
    simp only [firstFitSpec] at h ⊢
    split_ifs at h ⊢ with hf
    · omega
    · exact hfrom _ h

/-- A fresh arena of at least 16 and fewer than `2^31` bytes is well formed and
empty. -/
theorem fresh_wf (m0 : Mem) (start S : Nat) (hS : SIZEOF_CONTIGUOUS ≤ S)
    (hS1 : S < 2147483648) : WF (make_contiguous m0 start S) start [] := by
  refine ⟨?_, ?_, ?_, trivial⟩
  · simp [make_contiguous, Mem.setFirst, Mem.setUpper]
  · simp [make_contiguous, Mem.setFirst, Mem.setUpper]; omega
  · simp [make_contiguous, Mem.setFirst, Mem.setUpper]; omega

/-- In a well-formed arena smaller than `2^31` bytes, whatever `cmalloc` returns
for a positive size is the first fit of the specification, and the arena stays
well formed. -/
theorem cmalloc_wf_of_returns {m m1 : Mem} {block p : Nat} {l : List Nat} {size : Int}
    {fuel : Nat} (hwf : WF m block l) (h0 : 0 < size) (h1 : size < 2147483648)
    (h : cmalloc fuel m block size = some (p, m1)) :
    p = firstFitSpec m block size l ∧ WF m1 block (insertSpec m block size l) ∧
      (m1.blocks block).upper_limit = (m.blocks block).upper_limit ∧
      ∀ a, a + SIZEOF_CNODE ≠ p → (m1.nodes a).nsize = (m.nodes a).nsize := by
  obtain ⟨m2, e, hu, hns, hwf1⟩ :=
    cmalloc_wf (max fuel l.length) hwf h0 h1 (le_max_right _ _)
  have h2 := cmalloc_mono_le (le_max_left fuel l.length) _ _ _ _ h
  rw [e] at h2
  simp only [Option.some.injEq, Prod.mk.injEq] at h2
  obtain ⟨rfl, rfl⟩ := h2
  exact ⟨rfl, hwf1, hu, hns⟩

/-- One client call keeps the session invariant. -/
theorem Session.call_inv {fuel block upper : Nat} {s s1 : Session} {l : List Nat}
    {c : Call} (hinv : Session.Inv block upper s l) (h : s.call fuel block c = some s1) :
    ∃ l1, Session.Inv block upper s1 l1 := by
  obtain ⟨hwf, hperm, hup⟩ := hinv
  cases c with
  | alloc size =>
    simp only [Session.call] at h
    split_ifs at h with hsz
    cases hm : cmalloc fuel s.mem block size with
    | none => rw [hm] at h; simp at h
    | some x =>
      obtain ⟨p, m1⟩ := x
      rw [hm] at h
      simp only [Option.some.injEq] at h
      subst h
      obtain ⟨hp, hwf1, hu, -⟩ := cmalloc_wf_of_returns hwf hsz.1 hsz.2 hm
      refine ⟨insertSpec s.mem block size l, hwf1, ?_, hu.trans hup⟩
      dsimp only
      by_cases hp0 : p = 0
      · rw [if_pos hp0, insertSpec_of_null _ _ _ _ (hp ▸ hp0)]
        exact hperm
      · rw [if_neg hp0]
        have hne : firstFitSpec s.mem block size l ≠ 0 := hp ▸ hp0
        have hge := firstFitSpec_ge _ _ _ _ hne
        have h2 := (insertSpec_perm _ _ _ _ hne).map (· + SIZEOF_CNODE)
        refine List.Perm.trans ?_ h2.symm
        simp only [List.map_cons]
        rw [hp, Nat.sub_add_cancel hge]
        exact hperm.cons _
  | release p =>
    simp only [Session.call] at h
    split_ifs at h with hp
    simp only [Option.some.injEq] at h
    subst h
    have hp1 : p ∈ l.map (· + SIZEOF_CNODE) := hperm.subset hp
    obtain ⟨c, hc, rfl⟩ := List.mem_map.mp hp1
    refine ⟨l.erase c, cfree_wf hwf hc, ?_, ((cfree_frame _ _).1 block).trans hup⟩
    dsimp only
    have hinj : Function.Injective (· + SIZEOF_CNODE) := fun a b hab => by
      simpa using hab
    rw [List.map_erase hinj]
    exact hperm.erase _

/-- A sequence of client calls keeps the session invariant. -/
theorem Session.run_inv {fuel block upper : Nat} :
    ∀ (calls : List Call) {s s1 : Session} {l : List Nat}, Session.Inv block upper s l →
      Session.run fuel block s calls = some s1 → ∃ l1, Session.Inv block upper s1 l1 := by
  intro calls
  induction calls with
  | nil =>
    intro s s1 l hinv h
    simp only [Session.run, Option.some.injEq] at h
    subst h
    exact ⟨l, hinv⟩
  | cons c cs ih =>
    intro s s1 l hinv h
    simp only [Session.run] at h
    cases hc : s.call fuel block c with
    | none => rw [hc] at h; simp at h
    | some s2 =>
      rw [hc] at h
      obtain ⟨l2, hinv2⟩ := Session.call_inv hinv hc
      exact ih hinv2 h

/-- The session invariant holds after `make_contiguous`. -/
theorem Session.fresh_inv (m0 : Mem) (start S : Nat) (hS : SIZEOF_CONTIGUOUS ≤ S)
    (hS1 : S < 2147483648) : Session.Inv start (start + S) (Session.fresh m0 start S) [] := by
  refine ⟨fresh_wf m0 start S hS hS1, List.Perm.refl _, ?_⟩
  simp [Session.fresh, make_contiguous, Mem.setFirst, Mem.setUpper]

/-- Arenas of at least 16 and fewer than `2^31` bytes: in every state a session
reaches, the chunk list read via `next` is finite, ascending, free of overlap
and contained in the arena, the live handles are the payloads of its chunks,
and `cmalloc` with a positive size returns the first fit of the specification
within as many `add_node` calls as there are chunks. -/
theorem small_arena_invariants (m0 : Mem) (start S fuel : Nat) (calls : List Call)
    (s : Session) (hS : SIZEOF_CONTIGUOUS ≤ S) (hS1 : S < 2147483648)
    (hrun : Session.run fuel start (Session.fresh m0 start S) calls = some s) :
    ∃ l, chunkList (l.length + 1) s.mem start = l ∧ ascending l = true ∧
      noOverlap s.mem l = true ∧ contained s.mem start l = true ∧
      (s.mem.blocks start).upper_limit = start + S ∧
      s.live.Perm (l.map (· + SIZEOF_CNODE)) ∧
      ∀ size : Int, 0 < size → size < 2147483648 →
        returned (cmalloc l.length s.mem start size)
          = some (firstFitSpec s.mem start size l) := by
  obtain ⟨l, hwf, hperm, hup⟩ :=
    Session.run_inv calls (Session.fresh_inv m0 start S hS hS1) hrun
  refine ⟨l, hwf.chunkList_eq _ (Nat.lt_succ_self _), Linked.ascending_true hwf.linked,
    Linked.noOverlap_true hwf.linked, hwf.contained_true, hup, hperm, ?_⟩
  intro size h0 h1
  obtain ⟨m1, e, -⟩ := cmalloc_wf l.length hwf h0 h1 (le_refl _)
  rw [e]; rfl

/-- Arenas of at least 16 and fewer than `2^31` bytes: `cfree` on a live handle
leaves the chunk list without the chunk of that handle and changes no `nsize`. -/
theorem small_arena_cfree (m0 : Mem) (start S fuel : Nat) (calls : List Call)
    (s : Session) (p : Nat) (hS : SIZEOF_CONTIGUOUS ≤ S) (hS1 : S < 2147483648)
    (hrun : Session.run fuel start (Session.fresh m0 start S) calls = some s)
    (hp : p ∈ s.live) :
    ∃ l, chunkList (l.length + 1) s.mem start = l ∧ p - SIZEOF_CNODE ∈ l ∧
      chunkList (l.length + 1) (cfree s.mem p) start = l.erase (p - SIZEOF_CNODE) ∧
      ∀ a, ((cfree s.mem p).nodes a).nsize = (s.mem.nodes a).nsize := by
  obtain ⟨l, hwf, hperm, -⟩ :=
    Session.run_inv calls (Session.fresh_inv m0 start S hS hS1) hrun
  obtain ⟨c, hc, rfl⟩ := List.mem_map.mp (hperm.subset hp)
  have hwf1 := cfree_wf hwf hc
  refine ⟨l, hwf.chunkList_eq _ (Nat.lt_succ_self _), by simpa using hc, ?_,
    (cfree_frame _ _).2⟩
  rw [Nat.add_sub_cancel]
  refine hwf1.chunkList_eq _ ?_
  have := List.length_erase_of_mem hc
  omega

/-- Arenas of at least 16 and fewer than `2^31` bytes: once every live handle
has been released, `block->first` is `NULL`, and `cmalloc` returns the pointer
and builds the chunk list that it does on the fresh arena. -/
theorem small_arena_release_all (m0 : Mem) (start S fuel : Nat) (calls : List Call)
    (s : Session) (hS : SIZEOF_CONTIGUOUS ≤ S) (hS1 : S < 2147483648)
    (hrun : Session.run fuel start (Session.fresh m0 start S) calls = some s)
    (hlive : s.live = []) :
    (s.mem.blocks start).first = 0 ∧
      ∀ (fuel1 : Nat) (size : Int),
        (cmalloc fuel1 s.mem start size).map
            (fun r => (r.1, (chunkList 2 r.2 start).map fun a => (a, r.2.nodes a)))
          = (cmalloc fuel1 (make_contiguous m0 start S) start size).map
            (fun r => (r.1, (chunkList 2 r.2 start).map fun a => (a, r.2.nodes a))) := by
  obtain ⟨l, hwf, hperm, hup⟩ :=
    Session.run_inv calls (Session.fresh_inv m0 start S hS hS1) hrun
  rw [hlive] at hperm
  have hl : l = [] := by
    have := hperm.length_eq
    simp at this
    exact List.length_eq_zero.mp this.symm
  subst hl
  have hfirst : (s.mem.blocks start).first = 0 := hwf.first
  have hfirst0 : ((make_contiguous m0 start S).blocks start).first = 0 := by
    simp [make_contiguous, Mem.setFirst, Mem.setUpper]
  have hup0 : ((make_contiguous m0 start S).blocks start).upper_limit = start + S := by
    simp [make_contiguous, Mem.setFirst, Mem.setUpper]
  refine ⟨hfirst, fun fuel1 size => ?_⟩
  have k : start + SIZEOF_CONTIGUOUS ≠ 0 := by unfold SIZEOF_CONTIGUOUS; omega
  unfold cmalloc
  dsimp only
  rw [if_pos hfirst, if_pos hfirst0, hup, hup0]
  split_ifs
  · simp [chunkList, walk, Mem.setFirst, Mem.setPrev, Mem.setNsize, Mem.setNext, Mem.setBlock,
      Function.update_apply, k]
  · simp [chunkList, walk, hfirst, hfirst0]

/-- Chunks of one payload size `k` in a linked list take `sizeof(struct cnode) + k`
bytes each between the lower bound and `upper_limit`. -/
theorem Linked.footprint {m : Mem} {block k : Nat} :
    ∀ {l : List Nat} {prev lo : Nat}, Linked m block prev lo l →
      (∀ a ∈ l, (m.nodes a).nsize = k) → l ≠ [] →
      lo + l.length * (SIZEOF_CNODE + k) ≤ (m.blocks block).upper_limit := by
  intro l
  induction l with
  | nil => intro prev lo _ _ h; exact absurd rfl h
  | cons c r ih =>
    intro prev lo h hk _
    obtain ⟨h1, -, -, -, h5, h6⟩ := h
    have hc : chunkEnd m c = c + SIZEOF_CNODE + k := by
      unfold chunkEnd; rw [hk c (List.mem_cons_self _ _)]
    cases r with
    | nil => simp only [List.length_singleton, Nat.one_mul]; omega
    | cons d r =>
      have := ih h6 (fun a ha => hk a (List.mem_cons_of_mem _ ha)) (List.cons_ne_nil _ _)
      rw [List.length_cons, Nat.succ_mul]
      omega

/-- Arenas of at least 16 and fewer than `2^31` bytes: after any number of calls
`cmalloc(block, k)` and no release, the calls that returned a handle are at most
`(S - sizeof(struct contiguous)) / (k + sizeof(struct cnode))`, and once they are
that many the next call returns `NULL`. -/
theorem small_arena_capacity (m0 : Mem) (start S fuel n : Nat) (k : Int) (s : Session)
    (hS : SIZEOF_CONTIGUOUS ≤ S) (hS1 : S < 2147483648) (hk0 : 0 < k) (hk1 : k < 2147483648)
    (hrun : Session.run fuel start (Session.fresh m0 start S)
      (List.replicate n (Call.alloc k)) = some s) :
    (s.results.filter (fun p => decide (p ≠ 0))).length
        ≤ (S - SIZEOF_CONTIGUOUS) / (k.toNat + SIZEOF_CNODE) ∧
      ((s.results.filter (fun p => decide (p ≠ 0))).length
          = (S - SIZEOF_CONTIGUOUS) / (k.toNat + SIZEOF_CNODE) →
        ∀ fuel1, (s.results.filter (fun p => decide (p ≠ 0))).length ≤ fuel1 →
          returned (cmalloc fuel1 s.mem start k) = some 0) := by
  have k32 : SIZEOF_CNODE = 32 := rfl
  have k16 : SIZEOF_CONTIGUOUS = 16 := rfl
  have hts : toSizeT k = k.toNat := by
    have := toSizeT_pos k hk0 hk1
    omega
  -- the invariant of a session that only allocates `k` bytes
  have step : ∀ (n : Nat) (s0 s1 : Session) (l : List Nat),
      Session.Inv start (start + S) s0 l → (∀ a ∈ l, (s0.mem.nodes a).nsize = k.toNat) →
      l.length = (s0.results.filter (fun p => decide (p ≠ 0))).length →
      Session.run fuel start s0 (List.replicate n (Call.alloc k)) = some s1 →
      ∃ l1, Session.Inv start (start + S) s1 l1 ∧
        (∀ a ∈ l1, (s1.mem.nodes a).nsize = k.toNat) ∧
        l1.length = (s1.results.filter (fun p => decide (p ≠ 0))).length := by
    intro n
    induction n with
    | zero =>
      intro s0 s1 l hinv hns hlen h
      simp only [List.replicate, Session.run, Option.some.injEq] at h
      subst h
      exact ⟨l, hinv, hns, hlen⟩
    | succ n ih =>
      intro s0 s1 l hinv hns hlen h
      simp only [List.replicate, Session.run] at h
      cases hc : s0.call fuel start (Call.alloc k) with
      | none => rw [hc] at h; simp at h
      | some s2 =>
        rw [hc] at h
        dsimp only at h
        obtain ⟨hwf, hperm, hup⟩ := hinv
        simp only [Session.call] at hc
        rw [if_pos ⟨hk0, hk1⟩] at hc
        cases hm : cmalloc fuel s0.mem start k with
        | none => rw [hm] at hc; simp at hc
        | some x =>
          obtain ⟨p, m1⟩ := x
          rw [hm] at hc
          simp only [Option.some.injEq] at hc
          subst hc
          obtain ⟨hp, hwf1, hu, hfr⟩ := cmalloc_wf_of_returns hwf hk0 hk1 hm
          by_cases hp0 : p = 0
          · rcases cmalloc_result _ _ _ _ _ _ hm with ⟨-, hmm⟩ | ⟨hne, -⟩
            · subst hmm
              refine ih ⟨s0.mem, if p = 0 then s0.live else p :: s0.live, p :: s0.results⟩
                s1 l ?_ hns ?_ h
              · exact ⟨hwf, by simpa [hp0] using hperm, hup⟩
              · simpa [hp0] using hlen
            · exact absurd hp0 hne
          · have hne : firstFitSpec s0.mem start k l ≠ 0 := hp ▸ hp0
            have hpm := insertSpec_perm _ _ _ _ hne
            have hge := firstFitSpec_ge _ _ _ _ hne
            rcases cmalloc_result _ _ _ _ _ _ hm with ⟨h0, -⟩ | ⟨-, hnew⟩
            · exact absurd h0 hp0
            · refine ih ⟨m1, if p = 0 then s0.live else p :: s0.live, p :: s0.results⟩
                s1 (insertSpec s0.mem start k l) ⟨hwf1, ?_, hu.trans hup⟩ ?_ ?_ h
              · show (if p = 0 then s0.live else p :: s0.live).Perm _
                rw [if_neg hp0]
                have h2 := hpm.map (· + SIZEOF_CNODE)
                refine List.Perm.trans ?_ h2.symm
                simp only [List.map_cons]
                rw [← hp, Nat.sub_add_cancel (hp ▸ hge)]
                exact hperm.cons _
              · intro a ha
                dsimp only
                have ha' := hpm.subset ha
                by_cases hap : a + SIZEOF_CNODE = p
                · have : a = p - SIZEOF_CNODE := by omega
                  rw [this, hnew, hts]
                · rw [hfr a hap]
                  rcases List.mem_cons.mp ha' with h3 | h3
                  · rw [← hp] at h3; omega
                  · exact hns a h3
              · dsimp only
                rw [hpm.length_eq]
                simp [hp0, hlen]
  obtain ⟨l, ⟨hwf, hperm, hup⟩, hns, hlen⟩ :=
    step n _ s [] (Session.fresh_inv m0 start S hS hS1) (by simp) (by simp [Session.fresh]) hrun
  rw [← hlen]
  have hbound : ∀ (m : Mem) (l : List Nat), WF m start l →
      (m.blocks start).upper_limit = start + S → (∀ a ∈ l, (m.nodes a).nsize = k.toNat) →
      l.length ≤ (S - SIZEOF_CONTIGUOUS) / (k.toNat + SIZEOF_CNODE) := by
    intro m l hwf hup hns
    rw [Nat.le_div_iff_mul_le (by omega)]
    by_cases hl : l = []
    · subst hl; simp
    · have := Linked.footprint hwf.linked hns hl
      rw [hup, Nat.add_comm SIZEOF_CNODE] at this
      omega
  refine ⟨hbound _ l hwf hup hns, ?_⟩
  intro hfull fuel1 hf
  obtain ⟨m1, e, hu, hfr, hwf1⟩ := cmalloc_wf fuel1 hwf hk0 hk1 hf
  rw [e]
  simp only [returned, Option.map_some', Option.some.injEq]
  by_contra hp0
  have hpm := insertSpec_perm _ _ _ _ hp0
  have hge := firstFitSpec_ge _ _ _ _ hp0
  rcases cmalloc_result _ _ _ _ _ _ e with ⟨h0, -⟩ | ⟨-, hnew⟩
  · exact hp0 h0
  · have hns1 : ∀ a ∈ insertSpec s.mem start k l, (m1.nodes a).nsize = k.toNat := by
      intro a ha
      have ha' := hpm.subset ha
      by_cases hap : a + SIZEOF_CNODE = firstFitSpec s.mem start k l
      · have : a = firstFitSpec s.mem start k l - SIZEOF_CNODE := by omega
        rw [this, hnew, hts]
      · rw [hfr a hap]
        rcases List.mem_cons.mp ha' with h3 | h3
        · omega
        · exact hns a h3
    have := hbound m1 _ hwf1 (hu.trans hup) hns1
    rw [hpm.length_eq, List.length_cons] at this
    omega

/-! ## Arenas of 2 GiB and more

`add_node` stores each gap in an `int` before it compares it with
`size + sizeof(struct cnode)`, where the empty-arena branch of `cmalloc`
compares the pointer difference itself.  Once a gap reaches `2^31` bytes the
stored value is not the gap.  The sessions below run the code on such arenas;
every call in them is within the contract (`0 < size < 2^31`, live handles). -/

/-- C1 at its failing input.  Arena of `16 + 33 + 2^32 + 10` bytes at 4096 with
one chunk of 1 byte: the tail gap is `2^32 + 10` bytes, first fit by the
specification gives the handle 4177 for a request of 1 byte, and
`cmalloc(block, 1)` returns `NULL`. -/
theorem cmalloc_returns_null_despite_sufficient_gap :
    (Session.run 2 4096 (Session.fresh Mem.zero 4096 4294967355) [.alloc 1]).map
        (fun s => (chunkList 2 s.mem 4096,
          (s.mem.blocks 4096).upper_limit - chunkEnd s.mem 4112,
          firstFitSpec s.mem 4096 1 (chunkList 2 s.mem 4096),
          returned (cmalloc 2 s.mem 4096 1)))
      = some ([4112], 4294967306, 4177, some 0) := by
  decide!

/-- C2 at its failing input.  Arena of `2^31 + 83` bytes: after allocating 1,
`2^31 - 32` and 1 bytes and releasing the middle chunk, the gap between the two
chunks left is `2^31` bytes; `cmalloc(block, 2^31 - 1)` places a chunk at 4145
that ends at 2147487824, past the header of its successor at 2147487793. -/
theorem cmalloc_places_chunk_over_successor :
    (Session.run 3 4096 (Session.fresh Mem.zero 4096 2147483731)
        [.alloc 1, .alloc 2147483616, .alloc 1, .release 4177, .alloc 2147483647]).map
        (fun s => (s.results, chunkList 4 s.mem 4096, chunkEnd s.mem 4145,
          noOverlap s.mem (chunkList 4 s.mem 4096)))
      = some ([4177, 2147487825, 4177, 4144], [4112, 4145, 2147487793], 2147487824, false) := by
  decide!

/-- C3 at its failing input.  Arena of `2^31 + 402` bytes: once a chunk has been
placed over its successor, the gap after it is negative, its `int` value
converts to a huge `size_t`, and the next `cmalloc` links a chunk at 2147487824
before the chunk at 2147487793: the list read via `next` is not ascending. -/
theorem cmalloc_breaks_address_order :
    (Session.run 4 4096 (Session.fresh Mem.zero 4096 2147484050)
        [.alloc 1, .alloc 2147483616, .alloc 287, .alloc 1, .release 4177,
         .alloc 2147483647, .alloc 256]).map
        (fun s => (s.results, chunkList 6 s.mem 4096, ascending (chunkList 6 s.mem 4096)))
      = some ([2147487856, 4177, 2147488144, 2147487825, 4177, 4144],
          [4112, 4145, 2147487824, 2147487793, 2147488112], false) := by
  decide!

/-- C4 at its failing input.  Arena of `16 + 33 + 2^31` bytes with one chunk of 1
byte: the tail gap is `2^31` bytes and `cmalloc(block, 2^31 - 1)` returns the
handle 4177; the new chunk ends at 2147487824, past `upper_limit = 2147487793`. -/
theorem cmalloc_places_chunk_past_upper_limit :
    (Session.run 2 4096 (Session.fresh Mem.zero 4096 2147483697)
        [.alloc 1, .alloc 2147483647]).map
        (fun s => (s.results, chunkList 3 s.mem 4096, (s.mem.blocks 4096).upper_limit,
          chunkEnd s.mem 4145, contained s.mem 4096 (chunkList 3 s.mem 4096)))
      = some ([4177, 4144], [4112, 4145], 2147487793, 2147487824, false) := by
  decide!

/-- C5 at its failing input.  In the arena of C3, one more `cmalloc(block, 1)`
places its header at 2147488112, the address of a live header, and returns the
live handle 2147488144 again; after `cfree(2147488144)` the chunk at 2147488112
is still met when the list is read from `block->first` via `next`. -/
theorem cfree_keeps_released_chunk_linked :
    (Session.run 5 4096 (Session.fresh Mem.zero 4096 2147484050)
        [.alloc 1, .alloc 2147483616, .alloc 287, .alloc 1, .release 4177,
         .alloc 2147483647, .alloc 256, .alloc 1]).map
        (fun s => (s.live, chunkList 6 s.mem 4096,
          chunkList 6 (cfree s.mem 2147488144) 4096))
      = some ([2147488144, 2147487856, 4177, 2147488144, 2147487825, 4144],
          [4112, 4145, 2147487824, 2147488112, 2147487793, 2147488112],
          [4112, 4145, 2147487824, 2147487793, 2147488112, 2147487793]) := by
  decide!

/-- C7 at its failing input.  Arena of `16 + 33 + 2^31` bytes with one chunk of 1
byte: the tail gap, as `gapsize` computes it, is `2^31`, the requirement for a
request of `2^31 - 32` bytes is `2^31` as well, and `cmalloc` uses the gap: it
returns the handle 4177. -/
theorem cmalloc_uses_gap_equal_to_requirement :
    (Session.run 2 4096 (Session.fresh Mem.zero 4096 2147483697) [.alloc 1]).map
        (fun s => (chunkList 2 s.mem 4096,
          gapsize s.mem 4112 (s.mem.blocks 4096).upper_limit,
          need 2147483616,
          returned (cmalloc 2 s.mem 4096 2147483616)))
      = some ([4112], 2147483648, 2147483648, some 4177) := by
  decide!

/-- C9 at its failing input.  Arena of `S = 16 + 2^32 + 31` bytes and `k = 2^31 - 1`:
the bound `(S - 16) / (k + 32)` is 1, and the first two calls of
`cmalloc(block, k)` both return a handle. -/
theorem cmalloc_exceeds_capacity_bound :
    (Session.run 2 4096 (Session.fresh Mem.zero 4096 4294967343)
        [.alloc 2147483647, .alloc 2147483647]).map
        (fun s => (s.results, chunkList 3 s.mem 4096,
          (4294967343 - SIZEOF_CONTIGUOUS) / (2147483647 + SIZEOF_CNODE)))
      = some ([2147487823, 4144], [4112, 2147487791], 1) := by
  decide!

/-- C10 at its failing input.  In the arena of C5, after the eighth call, every
handle returned and not yet released is released once; no live handle is left
and `block->first` is 2147488112, not `NULL`. -/
theorem release_all_leaves_first_set :
    (Session.run 5 4096 (Session.fresh Mem.zero 4096 2147484050)
        [.alloc 1, .alloc 2147483616, .alloc 287, .alloc 1, .release 4177,
         .alloc 2147483647, .alloc 256, .alloc 1,
         .release 2147487825, .release 2147488144, .release 2147487856, .release 4177,
         .release 4144, .release 2147488144]).map
        (fun s => (s.live, (s.mem.blocks 4096).first))
      = some ([], 2147488112) := by
  decide!

/-! ## Scenarios of the specification -/

/-- C16 (releasing the none-handle): `cfree(NULL)` returns the memory it was
given, so `block->first`, `upper_limit` and every chunk header are unchanged. -/
theorem cfree_null_is_noop (m : Mem) : cfree m 0 = m := by
  unfold cfree
  rw [if_pos rfl]

/-- C11, as stated, fails: with `H_a = 16` and `H_c = 32` the arena has 58 bytes
and the payload sizes `10 - H_c` and `10 - H_c - 1` are `-22` and `-23`.  For
`-22` the requirement `(size_t)size + 32` is 10, the gap is 42, and `cmalloc`
returns the handle 4144 with `nsize = 2^64 - 22`: it does not return `NULL`. -/
theorem cmalloc_boundary_scenario_as_stated :
    (cmalloc 0 (make_contiguous Mem.zero 4096 58) 4096 (10 - (SIZEOF_CNODE : Int))).map
        (fun r => (r.1, chunkList 2 r.2 4096, (r.2.nodes 4112).nsize))
      = some (4144, [4112], 18446744073709551594) ∧
    need (10 - (SIZEOF_CNODE : Int)) = 10 := by
  decide!

/-- C11, amended: on a fresh arena of `H_a + H_c + 10 = 58` bytes the gap is
`H_c + 10 = 42` bytes; a request of 10 bytes needs exactly 42 and returns `NULL`,
and a request of 9 bytes returns the handle at `start + H_a + H_c`. -/
theorem cmalloc_boundary_scenario (m0 : Mem) (start fuel : Nat) :
    returned (cmalloc fuel (make_contiguous m0 start
        (SIZEOF_CONTIGUOUS + SIZEOF_CNODE + 10)) start 10) = some 0 ∧
      returned (cmalloc fuel (make_contiguous m0 start
        (SIZEOF_CONTIGUOUS + SIZEOF_CNODE + 10)) start 9)
        = some (start + SIZEOF_CONTIGUOUS + SIZEOF_CNODE) := by
  have hfirst : ((make_contiguous m0 start (SIZEOF_CONTIGUOUS + SIZEOF_CNODE + 10)).blocks
      start).first = 0 := by
    simp [make_contiguous, Mem.setFirst, Mem.setUpper]
  have hup : ((make_contiguous m0 start (SIZEOF_CONTIGUOUS + SIZEOF_CNODE + 10)).blocks
      start).upper_limit = start + (SIZEOF_CONTIGUOUS + SIZEOF_CNODE + 10) := by
    simp [make_contiguous, Mem.setFirst, Mem.setUpper]
  have h10 : ¬ toSizeT (((start + (SIZEOF_CONTIGUOUS + SIZEOF_CNODE + 10) : Nat) : Int)
      - ((start + SIZEOF_CONTIGUOUS : Nat) : Int)) > need 10 := by
    unfold toSizeT need toSizeT SIZEOF_CONTIGUOUS SIZEOF_CNODE; omega
  have h9 : toSizeT (((start + (SIZEOF_CONTIGUOUS + SIZEOF_CNODE + 10) : Nat) : Int)
      - ((start + SIZEOF_CONTIGUOUS : Nat) : Int)) > need 9 := by
    unfold toSizeT need toSizeT SIZEOF_CONTIGUOUS SIZEOF_CNODE; omega
  constructor
  · unfold cmalloc
    dsimp only
    rw [if_pos hfirst, hup, if_neg h10]
    rfl
  · unfold cmalloc
    dsimp only
    rw [if_pos hfirst, hup, if_pos h9]
    rfl

/-! ## Creation -/

/-- A fill loop that starts behind its end address does not end. -/
theorem fill_loop_past_end :
    ∀ (fuel remain end_ : Nat), end_ < remain → fill_loop fuel remain end_ = none := by
  intro fuel
  induction fuel with
  | zero => intro remain end_ _; rfl
  | succ k ih =>
    intro remain end_ h
    unfold fill_loop
    rw [if_pos (by omega), ih (remain + 1) end_ (by omega)]
    rfl

/-- A fill loop that starts at or before its end address writes every address
from its start up to the end, and ends. -/
theorem fill_loop_range :
    ∀ (n remain fuel : Nat), n < fuel →
      fill_loop fuel remain (remain + n) = some (List.range' remain n) := by
  intro n
  induction n with
  | zero =>
    intro remain fuel h
    obtain ⟨f, rfl⟩ : ∃ f, fuel = f + 1 := ⟨fuel - 1, by omega⟩
    unfold fill_loop
    simp
  | succ n ih =>
    intro remain fuel h
    obtain ⟨f, rfl⟩ : ∃ f, fuel = f + 1 := ⟨fuel - 1, by omega⟩
    unfold fill_loop
    rw [if_pos (by omega)]
    have := ih (remain + 1) f (by omega)
    rw [show remain + 1 + n = remain + (n + 1) by omega] at this
    rw [this]
    simp [List.range'_succ]

/-- For a size of at least `sizeof(struct contiguous)`, `make_contiguous` ends,
writes exactly the bytes of the reserved range, and leaves `first = NULL` and
`upper_limit = start + size` in the header at `start`. -/
theorem make_contiguous_of_header_fits (m : Mem) (start size fuel : Nat)
    (hsize : SIZEOF_CONTIGUOUS ≤ size) (hfuel : size - SIZEOF_CONTIGUOUS < fuel) :
    make_contiguous_writes fuel start size = some (List.range' start size) ∧
      outside start size (List.range' start size) = [] ∧
      (make_contiguous m start size).blocks start
        = { first := 0, upper_limit := start + size } := by
  refine ⟨?_, ?_, ?_⟩
  · unfold make_contiguous_writes
    have h := fill_loop_range (size - SIZEOF_CONTIGUOUS) (start + SIZEOF_CONTIGUOUS) fuel hfuel
    rw [show start + SIZEOF_CONTIGUOUS + (size - SIZEOF_CONTIGUOUS) = start + size by omega] at h
    rw [h]
    simp only [Option.map_some', Option.some.injEq]
    rw [List.range'_append_1]
    congr 1
    omega
  · unfold outside
    rw [List.filter_eq_nil_iff]
    intro a ha
    rw [List.mem_range'_1] at ha
    simp
    omega
  · simp [make_contiguous, Mem.setFirst, Mem.setUpper]

/-- C14 at its failing input.  For `size = 8` and `start = 4096` the two header
stores of `make_contiguous` write the 16 bytes from 4096, eight of them outside
the reserved range `[4096, 4104)`, and the fill loop starts at 4112, behind its
end address 4104, so that it does not end, whatever the bound. -/
theorem make_contiguous_overruns_small_size :
    outside 4096 8 (List.range' 4096 SIZEOF_CONTIGUOUS)
      = [4104, 4105, 4106, 4107, 4108, 4109, 4110, 4111] ∧
    ∀ fuel, make_contiguous_writes fuel 4096 8 = none := by
  refine ⟨by decide, fun fuel => ?_⟩
  unfold make_contiguous_writes
  rw [fill_loop_past_end fuel _ _ (by unfold SIZEOF_CONTIGUOUS; omega)]
  rfl

/-- C15 at its failing input.  When `malloc(64)` returns `NULL`, `start` is 0:
`make_contiguous` stores `first` and `upper_limit` through it and fills up to
address 64; it writes the 64 bytes from address 0 and returns `start`, the
header that the typed memory then holds at address 0. -/
theorem make_contiguous_writes_through_null :
    make_contiguous_writes 49 0 64 = some (List.range' 0 64) ∧
    (make_contiguous Mem.zero 0 64).blocks 0 = { first := 0, upper_limit := 64 } := by
  decide!

/-! ## The `int` gaps of `add_node` -/

/-- One call of `add_node`, with its three gaps named as in the source. -/
theorem add_node_succ (fuel : Nat) (m : Mem) (node : Nat) (size : Int) (block : Nat) :
    add_node (fuel + 1) m node size block =
      if (m.nodes node).prev = 0 ∧ toSizeT (gap_below_block node block) > need size then
        some (block + SIZEOF_CONTIGUOUS + SIZEOF_CNODE,
          (((((m.setFirst block (block + SIZEOF_CONTIGUOUS)).setNext
            (block + SIZEOF_CONTIGUOUS) node).setNsize (block + SIZEOF_CONTIGUOUS)
            (toSizeT size)).setPrev (block + SIZEOF_CONTIGUOUS) 0).setBlock
            (block + SIZEOF_CONTIGUOUS) block).setPrev node (block + SIZEOF_CONTIGUOUS))
      else if (m.nodes node).next = 0 then
        if toSizeT (byte_gap m node block) > need size then
          some (chunkEnd m node + SIZEOF_CNODE,
            ((((m.setNext (chunkEnd m node) 0).setNsize (chunkEnd m node)
              (toSizeT size)).setPrev (chunkEnd m node) node).setBlock (chunkEnd m node)
              block).setNext node (chunkEnd m node))
        else some (0, m)
      else if (m.nodes node).next ≠ 0 then
        if toSizeT (byte_gap_2 m node) > need size then
          some (chunkEnd m node + SIZEOF_CNODE,
            (((((m.setNext (chunkEnd m node) (m.nodes node).next).setPrev
              ((m.setNext (chunkEnd m node) (m.nodes node).next).nodes node).next
              (chunkEnd m node)).setNext node (chunkEnd m node)).setPrev (chunkEnd m node)
              node).setNsize (chunkEnd m node) (toSizeT size)).setBlock (chunkEnd m node)
              block)
        else add_node fuel m (m.nodes node).next size block
      else some (0, m) :=
  rfl

/-- C20 (the `int` gaps on large arenas).  In the arena of `16 + 33 + 2^31` bytes
with one chunk of 1 byte the tail gap is `2^31`; `add_node` holds it in
`byte_gap` as `-2^31`, which converts to `2^64 - 2^31`, more than the
`2^31 + 31` that a request of `2^31 - 1` bytes needs, and returns the handle
4177 of a chunk that ends at 2147487824, past `upper_limit = 2147487793`.
For every gap from 0 to `2^31 - 1` and every positive size the comparison on
the `int` copy is the comparison on the gap. -/
theorem int_gap_breaks_fit_test_at_two_gib :
    (Session.run 2 4096 (Session.fresh Mem.zero 4096 2147483697) [.alloc 1]).map
        (fun s => (chunkList 2 s.mem 4096,
          gapsize s.mem 4112 (s.mem.blocks 4096).upper_limit,
          toSizeT (byte_gap s.mem 4112 4096), need 2147483647))
      = some ([4112], 2147483648, 18446744071562067968, 2147483679) ∧
    (Session.run 2 4096 (Session.fresh Mem.zero 4096 2147483697) [.alloc 1]).map
        (fun s => (byte_gap s.mem 4112 4096,
          (add_node 1 s.mem 4112 2147483647 4096).map
            (fun r => (r.1, chunkEnd r.2 4145, (r.2.blocks 4096).upper_limit))))
      = some (-2147483648, some (4177, 2147487824, 2147487793)) ∧
    ∀ (a b : Nat) (size : Int), b ≤ a → a - b < 2147483648 → 0 < size → size < 2147483648 →
      (toSizeT (toInt32 ((a : Int) - (b : Int))) > need size ↔
        (a : Int) - (b : Int) > size + (SIZEOF_CNODE : Int)) :=
  ⟨by decide!, by decide!, fun a b size hab hsmall h0 h1 => gap_test a b size hab hsmall h0 h1⟩

/-- C12 at its failing input.  Arena of `16 + 2^32 + 50` bytes: after two chunks
of `2^31 - 27` bytes and one of 1 byte have been allocated and the first two
released, the head is at 4294971418 and the head gap is `2^32 + 10` bytes, more
than the 33 that a request of 1 byte needs; `add_node` holds it in
`gap_below_block` as 10 and `cmalloc(block, 1)` returns `NULL`, where the claim
places the chunk at 4112.  The scenario of the specification on 1024 bytes
does give the chunk of 50 bytes as head before the chunk of 200 bytes. -/
theorem cmalloc_skips_sufficient_head_gap :
    (Session.run 3 4096 (Session.fresh Mem.zero 4096 4294967362)
        [.alloc 2147483621, .alloc 2147483621, .alloc 1, .release 4144,
         .release 2147487797]).map
        (fun s => (s.results, chunkList 3 s.mem 4096,
          (s.mem.blocks 4096).first - (4096 + SIZEOF_CONTIGUOUS),
          toSizeT (gap_below_block 4294971418 4096)))
      = some ([4294971450, 2147487797, 4144], [4294971418], 4294967306, 10) ∧
    (Session.run 3 4096 (Session.fresh Mem.zero 4096 4294967362)
        [.alloc 2147483621, .alloc 2147483621, .alloc 1, .release 4144,
         .release 2147487797]).map
        (fun s => (firstFitSpec s.mem 4096 1 (chunkList 3 s.mem 4096),
          returned (cmalloc 3 s.mem 4096 1)))
      = some (4144, some 0) ∧
    (Session.run 3 4096 (Session.fresh Mem.zero 4096 1024)
        [.alloc 100, .alloc 200, .release 4144, .alloc 50]).map
        (fun s => (s.results, (chunkList 3 s.mem 4096).map (fun a => (a, s.mem.nodes a))))
      = some ([4144, 4276, 4144],
          [(4112, { nsize := 50, prev := 0, next := 4244, block := 4096 }),
           (4244, { nsize := 200, prev := 4112, next := 0, block := 4096 })]) := by
  decide!

/-- C18 at its failing input.  Arena of `2^31 + 83` bytes with chunks at 4112,
4145 and 2147487793: the two gaps are 0 and the middle chunk has
`nsize = 2^31 - 32`.  After `cfree(4177)`, `gapsize` gives
`0 + 32 + (2^31 - 32) + 0 = 2^31` for the merged gap, but the scan of `cmalloc`
holds it in `byte_gap_2` as `-2^31` and accepts a request of `2^31 - 1` bytes,
which needs `2^31 + 31`. -/
theorem merged_gap_seen_truncated :
    (Session.run 3 4096 (Session.fresh Mem.zero 4096 2147483731)
        [.alloc 1, .alloc 2147483616, .alloc 1]).map
        (fun s => (chunkList 4 s.mem 4096, gapsize s.mem 4112 4145, (s.mem.nodes 4145).nsize,
          gapsize s.mem 4145 2147487793))
      = some ([4112, 4145, 2147487793], 0, 2147483616, 0) ∧
    (Session.run 3 4096 (Session.fresh Mem.zero 4096 2147483731)
        [.alloc 1, .alloc 2147483616, .alloc 1]).map
        (fun s => (chunkList 4 (cfree s.mem 4177) 4096,
          gapsize (cfree s.mem 4177) 4112 2147487793, need 2147483647,
          returned (cmalloc 3 (cfree s.mem 4177) 4096 2147483647)))
      = some ([4112, 2147487793], 2147483648, 2147483679, some 4177) ∧
    (Session.run 3 4096 (Session.fresh Mem.zero 4096 2147483731)
        [.alloc 1, .alloc 2147483616, .alloc 1]).map
        (fun s => byte_gap_2 (cfree s.mem 4177) 4112)
      = some (-2147483648) := by
  decide!

/-- C19 at its failing input.  Arena of `2^31 + 402` bytes in the state of C3, in
which the chunk at 2147487824 ends at 2147488112, the address of the live tail
header `{nsize 1, prev 2147487793, next NULL}`.  `cmalloc(block, 1)` writes its
header there and returns 2147488144; after `cfree(2147488144)` that live header
has `prev = 2147487824` and `next = 2147487793`, not its values before the
`cmalloc`. -/
theorem alloc_then_release_changes_live_header :
    (Session.run 5 4096 (Session.fresh Mem.zero 4096 2147484050)
        [.alloc 1, .alloc 2147483616, .alloc 287, .alloc 1, .release 4177,
         .alloc 2147483647, .alloc 256]).map
        (fun s => (chunkList 6 s.mem 4096, s.mem.nodes 2147488112,
          (cmalloc 5 s.mem 4096 1).map
            (fun r => (r.1, (cfree r.2 r.1).nodes 2147488112))))
      = some ([4112, 4145, 2147487824, 2147487793, 2147488112],
          { nsize := 1, prev := 2147487793, next := 0, block := 4096 },
          some (2147488144,
            { nsize := 1, prev := 2147487824, next := 2147487793, block := 4096 })) := by
  decide!

/-! ## Termination -/

/-- A call of `add_node` that finds neither the head gap nor the gap behind
`node` sufficient, at a node with a successor, is the call on the successor. -/
theorem add_node_skip (fuel : Nat) (m : Mem) (node : Nat) (size : Int) (block : Nat)
    (hhead : ¬((m.nodes node).prev = 0 ∧ toSizeT (gap_below_block node block) > need size))
    (hnext : (m.nodes node).next ≠ 0)
    (hgap : ¬toSizeT (byte_gap_2 m node) > need size) :
    add_node (fuel + 1) m node size block = add_node fuel m (m.nodes node).next size block := by
  rw [add_node_succ, if_neg hhead, if_neg hnext, if_pos hnext, if_neg hgap]

/-- C17 at its failing input.  The session below is within the contract and ends
in `loopArena`, where the list read via `next` is 4112, 4145, 2147487824,
4294971248, 2147487793, 4294971248, and so on.  For a request of 130 bytes
(requirement 162) every gap on the way is refused: the gaps behind 4112, 4145,
2147487824 and 2147487793 are 0, and the gap behind 4294971248, which is
`-(2^32 - 162)`, is held in `byte_gap_2` as 162.  `add_node` therefore calls
itself along the cycle and `cmalloc(block, 130)` does not return, whatever the
bound. -/
theorem cmalloc_does_not_return_on_cycle :
    (Session.run 5 4096 (Session.fresh Mem.zero 4096 4294967186)
        [.alloc 1, .alloc 2147483616, .alloc 2147483423, .alloc 1, .release 4177,
         .alloc 2147483647, .alloc 2147483392, .alloc 2147483647]).map
        (fun s => (s.results, chunkList 7 s.mem 4096))
      = some ([4294971280, 2147487856, 4177, 4294971280, 2147487825, 4177, 4144],
          [4112, 4145, 2147487824, 4294971248, 2147487793, 4294971248, 2147487793]) ∧
    ∀ fuel, cmalloc fuel loopArena 4096 130 = none := by
  refine ⟨by decide!, ?_⟩
  have hfirst : (loopArena.blocks 4096).first = 4112 := by decide!
  have ha : ¬((loopArena.nodes 4112).prev = 0 ∧ toSizeT (gap_below_block 4112 4096) > need 130)
      ∧ (loopArena.nodes 4112).next = 4145 ∧ ¬toSizeT (byte_gap_2 loopArena 4112) > need 130 := by
    decide!
  have hc : ¬((loopArena.nodes 4145).prev = 0 ∧ toSizeT (gap_below_block 4145 4096) > need 130)
      ∧ (loopArena.nodes 4145).next = 2147487824 ∧
      ¬toSizeT (byte_gap_2 loopArena 4145) > need 130 := by
    decide!
  have hd : ¬((loopArena.nodes 2147487824).prev = 0 ∧
        toSizeT (gap_below_block 2147487824 4096) > need 130)
      ∧ (loopArena.nodes 2147487824).next = 4294971248 ∧
      ¬toSizeT (byte_gap_2 loopArena 2147487824) > need 130 := by
    decide!
  have he : ¬((loopArena.nodes 4294971248).prev = 0 ∧
        toSizeT (gap_below_block 4294971248 4096) > need 130)
      ∧ (loopArena.nodes 4294971248).next = 2147487793 ∧
      ¬toSizeT (byte_gap_2 loopArena 4294971248) > need 130 := by
    decide!
  have hb : ¬((loopArena.nodes 2147487793).prev = 0 ∧
        toSizeT (gap_below_block 2147487793 4096) > need 130)
      ∧ (loopArena.nodes 2147487793).next = 4294971248 ∧
      ¬toSizeT (byte_gap_2 loopArena 2147487793) > need 130 := by
    decide!
  have step : ∀ (x y : Nat), (¬((loopArena.nodes x).prev = 0 ∧
        toSizeT (gap_below_block x 4096) > need 130)
      ∧ (loopArena.nodes x).next = y ∧ ¬toSizeT (byte_gap_2 loopArena x) > need 130) →
      y ≠ 0 → ∀ f, add_node (f + 1) loopArena x 130 4096 = add_node f loopArena y 130 4096 := by
    intro x y h hy f
    rw [add_node_skip f loopArena x 130 4096 h.1 (by rw [h.2.1]; exact hy) h.2.2, h.2.1]
  have hcycle : ∀ f, add_node f loopArena 4294971248 130 4096 = none ∧
      add_node f loopArena 2147487793 130 4096 = none := by
    intro f
    induction f with
    | zero => exact ⟨rfl, rfl⟩
    | succ k ih =>
      exact ⟨by rw [step _ _ he (by decide) k]; exact ih.2,
        by rw [step _ _ hb (by decide) k]; exact ih.1⟩
  have hfrom : ∀ (x y : Nat), (¬((loopArena.nodes x).prev = 0 ∧
        toSizeT (gap_below_block x 4096) > need 130)
      ∧ (loopArena.nodes x).next = y ∧ ¬toSizeT (byte_gap_2 loopArena x) > need 130) →
      y ≠ 0 → (∀ f, add_node f loopArena y 130 4096 = none) →
      ∀ f, add_node f loopArena x 130 4096 = none := by
    intro x y h hy hnone f
    cases f with
    | zero => rfl
    | succ k => rw [step x y h hy k]; exact hnone k
  have h4 := hfrom _ _ hd (by decide) (fun f => (hcycle f).1)
  have h3 := hfrom _ _ hc (by decide) h4
  have h2 := hfrom _ _ ha (by decide) h3
  intro fuel
  unfold cmalloc
  dsimp only
  rw [hfirst, if_neg (by decide)]
  exact h2 fuel

/-! ## No residue of stale headers -/

/-- In a linked list every header lies at or below a given header `x` of the
list, or at or above the successor of `x`, which is a header of the list. -/
theorem Linked.split_at {m : Mem} {block x : Nat} :
    ∀ {l : List Nat} {prev lo : Nat}, Linked m block prev lo l → x ∈ l →
      (∀ a ∈ l, a ≤ x ∨ ((m.nodes x).next ≠ 0 ∧ (m.nodes x).next ≤ a)) ∧
        ((m.nodes x).next ≠ 0 → (m.nodes x).next ∈ l) := by
  intro l
  induction l with
  | nil => intro prev lo _ hx; simp at hx
  | cons c r ih =>
    intro prev lo h hx
    obtain ⟨h1, -, -, h4, -, h6⟩ := h
    have lc := lt_chunkEnd m c
    rcases List.mem_cons.mp hx with rfl | hxr
    · cases r with
      | nil =>
        simp only [List.headD] at h4
        exact ⟨fun a ha => Or.inl (le_of_eq (by simpa using ha)), fun h => absurd h4 h⟩
      | cons d r =>
        simp only [List.headD] at h4
        have hd := h6.1
        have ld := lt_chunkEnd m d
        have hrest := Linked.lo_le h6.2.2.2.2.2
        refine ⟨fun a ha => ?_, fun _ => by rw [h4]; simp⟩
        rcases List.mem_cons.mp ha with rfl | ha
        · exact Or.inl (le_refl _)
        · right
          rw [h4]
          refine ⟨by omega, ?_⟩
          rcases List.mem_cons.mp ha with rfl | ha
          · exact le_refl _
          · have := hrest a ha
            omega
    · obtain ⟨i1, i2⟩ := ih h6 hxr
      have hxge := Linked.lo_le h6 x hxr
      refine ⟨fun a ha => ?_, fun h => List.mem_cons_of_mem _ (i2 h)⟩
      rcases List.mem_cons.mp ha with rfl | ha
      · left; omega
      · exact i1 a ha

/-- The end of a header of a linked list has that header as address neighbour
below and its successor as address neighbour above, when it lies below the
successor. -/
theorem Linked.neighbours {m : Mem} {block x prev lo : Nat} {l : List Nat}
    (h : Linked m block prev lo l) (hx : x ∈ l)
    (hnext : (m.nodes x).next = 0 ∨ chunkEnd m x < (m.nodes x).next) :
    IsAddrPrev l (chunkEnd m x) x ∧ IsAddrNext l (chunkEnd m x) (m.nodes x).next := by
  obtain ⟨i1, i2⟩ := Linked.split_at h hx
  have lx := lt_chunkEnd m x
  constructor
  · right
    refine ⟨hx, by omega, fun a ha hlt => ?_⟩
    rcases i1 a ha with h1 | ⟨h1, h2⟩
    · exact h1
    · rcases hnext with h3 | h3
      · exact absurd h3 h1
      · omega
  · by_cases h0 : (m.nodes x).next = 0
    · left
      refine ⟨h0, fun a ha hlt => ?_⟩
      rcases i1 a ha with h1 | ⟨h1, -⟩
      · omega
      · exact h1 h0
    · right
      rcases hnext with h3 | h3
      · exact absurd h3 h0
      · refine ⟨i2 h0, h3, fun a ha hlt => ?_⟩
        rcases i1 a ha with h1 | ⟨-, h2⟩
        · omega
        · exact h2

/-- The address neighbour below is unique. -/
theorem isAddrPrev_unique {l : List Nat} {n p p1 : Nat} (h : IsAddrPrev l n p)
    (h1 : IsAddrPrev l n p1) : p = p1 := by
  rcases h with ⟨rfl, ha⟩ | ⟨hm, hlt, ha⟩ <;> rcases h1 with ⟨rfl, hb⟩ | ⟨hm1, hlt1, hb⟩
  · rfl
  · exact absurd hlt1 (ha _ hm1)
  · exact absurd hlt (hb _ hm)
  · exact Nat.le_antisymm (hb _ hm hlt) (ha _ hm1 hlt1)

/-- The address neighbour above is unique. -/
theorem isAddrNext_unique {l : List Nat} {n q q1 : Nat} (h : IsAddrNext l n q)
    (h1 : IsAddrNext l n q1) : q = q1 := by
  rcases h with ⟨rfl, ha⟩ | ⟨hm, hlt, ha⟩ <;> rcases h1 with ⟨rfl, hb⟩ | ⟨hm1, hlt1, hb⟩
  · rfl
  · exact absurd hlt1 (ha _ hm1)
  · exact absurd hlt (hb _ hm)
  · exact Nat.le_antisymm (ha _ hm1 hlt1) (hb _ hm hlt)

/-- A gap that passes the fit test of `add_node` is not empty: its bounds differ. -/
theorem ne_of_fit {a b : Nat} {n : Nat}
    (h : toSizeT (toInt32 ((a : Int) - (b : Int))) > n) : a ≠ b := by
  rintro rfl
  rw [sub_self] at h
  have : toSizeT (toInt32 0) = 0 := by decide
  omega

/-- With fuel above the length of the linked list behind `c`, `add_node`
started behind the head gap returns; a handle other than `NULL` lies behind a
new header at the end of a chunk `x` of the list, before the successor of `x`,
and the new header holds the requested size, `x`, the successor of `x` and the
arena.  No bound on the size of the arena is assumed. -/
theorem add_node_new_header {m : Mem} {block : Nat} (size : Int) :
    ∀ (r : List Nat) (c prev lo fuel : Nat), Linked m block prev lo (c :: r) → 0 < lo →
      r.length < fuel →
      ¬((m.nodes c).prev = 0 ∧ toSizeT (gap_below_block c block) > need size) →
      ∃ p m1, add_node fuel m c size block = some (p, m1) ∧
        (p ≠ 0 → ∃ x ∈ c :: r, p = chunkEnd m x + SIZEOF_CNODE ∧
          ((m.nodes x).next = 0 ∨ chunkEnd m x < (m.nodes x).next) ∧
          m1.nodes (chunkEnd m x)
            = { nsize := toSizeT size, prev := x, next := (m.nodes x).next, block := block } ∧
          m1.blocks = m.blocks ∧
          m1.nodes x = { m.nodes x with next := chunkEnd m x } ∧
          ((m.nodes x).next ≠ 0 →
            m1.nodes (m.nodes x).next = { m.nodes (m.nodes x).next with prev := chunkEnd m x }) ∧
          ∀ a, a ≠ x → a ≠ chunkEnd m x → a ≠ (m.nodes x).next ∨ (m.nodes x).next = 0 →
            m1.nodes a = m.nodes a) := by
  intro r
  induction r with
  | nil =>
    intro c prev lo fuel hl hlo hfuel hhead
    obtain ⟨f, rfl⟩ : ∃ f, fuel = f + 1 := ⟨fuel - 1, by simp at hfuel; omega⟩
    obtain ⟨a1, a2, a3, a4, a5, -⟩ := hl
    simp only [List.headD] at a4
    have l1 := lt_chunkEnd m c
    have hcn : c ≠ chunkEnd m c := by omega
    rw [add_node_succ, if_neg hhead, if_pos a4]
    by_cases hfit : toSizeT (byte_gap m c block) > need size
    · rw [if_pos hfit]
      refine ⟨_, _, rfl, fun _ => ⟨c, List.mem_cons_self _ _, rfl, Or.inl a4, ?_, rfl, ?_,
        fun h => absurd a4 h, ?_⟩⟩
      · rw [a4]
        simp [Mem.setNext, Mem.setNsize, Mem.setPrev, Mem.setBlock, Function.update_apply,
          hcn.symm]
      · simp [Mem.setNext, Mem.setNsize, Mem.setPrev, Mem.setBlock, Function.update_apply,
          hcn]
      · intro a e1 e2 _
        simp [Mem.setNext, Mem.setNsize, Mem.setPrev, Mem.setBlock, Function.update_apply,
          e1, e2]
    · rw [if_neg hfit]
      exact ⟨0, m, rfl, fun h => absurd rfl h⟩
  | cons d r ih =>
    intro c prev lo fuel hl hlo hfuel hhead
    obtain ⟨f, rfl⟩ : ∃ f, fuel = f + 1 := ⟨fuel - 1, by simp at hfuel; omega⟩
    obtain ⟨a1, a2, a3, a4, a5, hrest⟩ := hl
    have b1 := hrest.1
    have b2 := hrest.2.1
    simp only [List.headD] at a4
    have l1 := lt_chunkEnd m c
    have l2 := lt_chunkEnd m d
    have hdpos : (m.nodes c).next ≠ 0 := by omega
    have hcn : c ≠ chunkEnd m c := by omega
    rw [add_node_succ, if_neg hhead, if_neg hdpos, if_pos hdpos]
    by_cases hfit : toSizeT (byte_gap_2 m c) > need size
    · rw [if_pos hfit]
      have hne : (m.nodes c).next ≠ chunkEnd m c := by
        have := ne_of_fit hfit
        exact this
      have hdn : d ≠ chunkEnd m c := by rw [← a4]; exact hne
      have hlt : chunkEnd m c < (m.nodes c).next := by omega
      have hcd : c ≠ d := by omega
      refine ⟨_, _, rfl, fun _ => ⟨c, List.mem_cons_self _ _, rfl, Or.inr hlt, ?_, rfl, ?_,
        fun _ => ?_, ?_⟩⟩
      · rw [a4]
        simp [Mem.setNext, Mem.setNsize, Mem.setPrev, Mem.setBlock, Function.update_apply,
          hcn, hcn.symm, hdn, hdn.symm, a4]
      · simp [Mem.setNext, Mem.setNsize, Mem.setPrev, Mem.setBlock, Function.update_apply,
          hcn, hcn.symm, hdn, hdn.symm, hcd, hcd.symm, a4]
      · rw [a4]
        simp [Mem.setNext, Mem.setNsize, Mem.setPrev, Mem.setBlock, Function.update_apply,
          hcn, hcn.symm, hdn, hdn.symm, hcd, hcd.symm, a4]
      · intro a e1 e2 e3
        have e4 : a ≠ d := by
          rcases e3 with e3 | e3
          · rw [← a4]; exact e3
          · exact absurd e3 hdpos
        simp [Mem.setNext, Mem.setNsize, Mem.setPrev, Mem.setBlock, Function.update_apply,
          e1, e2, e4, a4, hcn, hcn.symm]
    · rw [if_neg hfit, a4]
      have hfuel' : r.length < f := by simp at hfuel; omega
      have hhead' : ¬((m.nodes d).prev = 0 ∧ toSizeT (gap_below_block d block) > need size) := by
        intro h
        omega
      obtain ⟨p, m1, e, hp⟩ := ih d c (chunkEnd m c) f hrest (by omega) hfuel' hhead'
      refine ⟨p, m1, e, fun h => ?_⟩
      obtain ⟨x, hx, rest⟩ := hp h
      exact ⟨x, List.mem_cons_of_mem _ hx, rest⟩

/-- The pointer returned by `add_node` is read off the arena header and the
headers of the linked list: memories that agree on them give the same pointer. -/
theorem add_node_congr {m m1 : Mem} {block : Nat} (size : Int)
    (hB : m1.blocks block = m.blocks block) :
    ∀ (r : List Nat) (c prev lo fuel : Nat), Linked m block prev lo (c :: r) →
      (∀ a ∈ c :: r, m1.nodes a = m.nodes a) →
      returned (add_node fuel m1 c size block) = returned (add_node fuel m c size block) := by
  intro r
  induction r with
  | nil =>
    intro c prev lo fuel hl hsame
    cases fuel with
    | zero => rfl
    | succ f =>
      have hc : m1.nodes c = m.nodes c := hsame c (List.mem_cons_self _ _)
      have he : chunkEnd m1 c = chunkEnd m c := by unfold chunkEnd; rw [hc]
      have hg : byte_gap m1 c block = byte_gap m c block := by unfold byte_gap; rw [hc, hB]
      have a4 := hl.2.2.2.1
      simp only [List.headD] at a4
      rw [add_node_succ, add_node_succ, hc, hg, he, if_pos a4, if_pos a4]
      split_ifs <;> rfl
  | cons d r ih =>
    intro c prev lo fuel hl hsame
    cases fuel with
    | zero => rfl
    | succ f =>
      have hc : m1.nodes c = m.nodes c := hsame c (List.mem_cons_self _ _)
      have he : chunkEnd m1 c = chunkEnd m c := by unfold chunkEnd; rw [hc]
      have hg : byte_gap_2 m1 c = byte_gap_2 m c := by unfold byte_gap_2; rw [hc]
      obtain ⟨a1, a2, a3, a4, a5, hrest⟩ := hl
      simp only [List.headD] at a4
      have b1 := hrest.1
      have l1 := lt_chunkEnd m c
      have hdpos : (m.nodes c).next ≠ 0 := by omega
      rw [add_node_succ, add_node_succ, hc, hg, he, if_neg hdpos, if_neg hdpos, if_pos hdpos,
        if_pos hdpos, a4]
      have hrec := ih d c (chunkEnd m c) f hrest (fun a ha => hsame a (List.mem_cons_of_mem _ ha))
      split_ifs <;> first | rfl | exact hrec

/-- With fuel equal to the length of the chunk list, `cmalloc` on an arena
whose chunks are linked in ascending order returns; a handle other than `NULL`
lies behind a new header that holds the requested size, the arena, and the
address neighbours of the new header among the chunks of the list. -/
theorem cmalloc_new_header {m : Mem} {block : Nat} {l : List Nat} (size : Int)
    (hfirst : (m.blocks block).first = l.headD 0)
    (hlinked : Linked m block 0 (block + SIZEOF_CONTIGUOUS) l) :
    ∃ p m1, cmalloc l.length m block size = some (p, m1) ∧
      (p ≠ 0 → ∃ pv nx, IsAddrPrev l (p - SIZEOF_CNODE) pv ∧ IsAddrNext l (p - SIZEOF_CNODE) nx ∧
        m1.nodes (p - SIZEOF_CNODE)
          = { nsize := toSizeT size, prev := pv, next := nx, block := block }) := by
  have k32 : SIZEOF_CNODE = 32 := rfl
  have k16 : SIZEOF_CONTIGUOUS = 16 := rfl
  cases l with
  | nil =>
    simp only [List.headD] at hfirst
    unfold cmalloc
    simp only [List.length_nil]
    rw [if_pos hfirst]
    split_ifs with hfit
    · refine ⟨_, _, rfl, fun _ => ⟨0, 0, Or.inl ⟨rfl, by simp⟩, Or.inl ⟨rfl, by simp⟩, ?_⟩⟩
      simp [Mem.setNext, Mem.setNsize, Mem.setPrev, Mem.setBlock, Mem.setFirst]
    · exact ⟨0, m, rfl, fun h => absurd rfl h⟩
  | cons c r =>
    simp only [List.headD] at hfirst
    have hl := hlinked
    obtain ⟨a1, a2, a3, a4, a5, hrest⟩ := hlinked
    have l1 := lt_chunkEnd m c
    have hc0 : (m.blocks block).first ≠ 0 := by omega
    have hcm : cmalloc (c :: r).length m block size = add_node (r.length + 1) m c size block := by
      unfold cmalloc
      simp only [List.length_cons]
      rw [if_neg hc0, hfirst]
    rw [hcm]
    by_cases hhead : (m.nodes c).prev = 0 ∧ toSizeT (gap_below_block c block) > need size
    · rw [add_node_succ, if_pos hhead]
      have hne : c ≠ block + SIZEOF_CONTIGUOUS := ne_of_fit hhead.2
      have hlt : block + SIZEOF_CONTIGUOUS < c := by omega
      have hsub : block + SIZEOF_CONTIGUOUS + SIZEOF_CNODE - SIZEOF_CNODE
          = block + SIZEOF_CONTIGUOUS := by omega
      refine ⟨_, _, rfl, fun _ => ⟨0, c, ?_, ?_, ?_⟩⟩
      · rw [hsub]
        refine Or.inl ⟨rfl, fun a ha => ?_⟩
        have := Linked.lo_le hl a ha
        omega
      · rw [hsub]
        refine Or.inr ⟨List.mem_cons_self _ _, hlt, fun a ha _ => ?_⟩
        rcases List.mem_cons.mp ha with rfl | ha
        · exact le_refl _
        · have := Linked.lo_le hrest a ha
          omega
      · rw [hsub]
        simp [Mem.setNext, Mem.setNsize, Mem.setPrev, Mem.setBlock, Mem.setFirst,
          Function.update_apply, hne, hne.symm]
    · obtain ⟨p, m1, e, hp⟩ := add_node_new_header size r c 0 (block + SIZEOF_CONTIGUOUS)
        (r.length + 1) hl (by omega) (Nat.lt_succ_self _) hhead
      refine ⟨p, m1, e, fun h => ?_⟩
      obtain ⟨x, hx, rfl, hnext, hhdr, -⟩ := hp h
      obtain ⟨n1, n2⟩ := Linked.neighbours hl hx hnext
      have hsub : chunkEnd m x + SIZEOF_CNODE - SIZEOF_CNODE = chunkEnd m x := by omega
      rw [hsub]
      exact ⟨x, (m.nodes x).next, n1, n2, hhdr⟩

/-- The pointer returned by `cmalloc` is read off the arena header and the
headers of the chunk list: memories that agree on them give the same pointer. -/
theorem cmalloc_congr {m m1 : Mem} {block : Nat} {l : List Nat} (size : Int) (fuel : Nat)
    (hB : m1.blocks block = m.blocks block)
    (hfirst : (m.blocks block).first = l.headD 0)
    (hlinked : Linked m block 0 (block + SIZEOF_CONTIGUOUS) l)
    (hsame : ∀ a ∈ l, m1.nodes a = m.nodes a) :
    returned (cmalloc fuel m1 block size) = returned (cmalloc fuel m block size) := by
  unfold cmalloc
  simp only [hB]
  cases l with
  | nil =>
    simp only [List.headD] at hfirst
    rw [if_pos hfirst, if_pos hfirst]
    split_ifs <;> rfl
  | cons c r =>
    simp only [List.headD] at hfirst
    have a1 := hlinked.1
    have k16 : SIZEOF_CONTIGUOUS = 16 := rfl
    have hc0 : (m.blocks block).first ≠ 0 := by omega
    rw [if_neg hc0, if_neg hc0, hfirst]
    exact add_node_congr size hB r c 0 (block + SIZEOF_CONTIGUOUS) fuel hlinked hsame

/-- No residue on linked arenas.  Two memories hold the same arena header at
`block` and the same headers of the chunks of `l`, which are linked in ascending
address order from `block->first`, and differ arbitrarily elsewhere, stale
headers in the gaps included.  For a request of `0 < size < 2^31` bytes
`cmalloc` returns in both, with the same pointer; when the pointer is not
`NULL` the header in front of it holds, in both memories after the call, the
same four fields: `nsize = size`, `block` the arena, and `prev` and `next` the
address neighbours of the new header among the chunks of `l`.  No bound on the
size of the arena is assumed. -/
theorem cmalloc_header_free_of_residue (m m1 : Mem) (block : Nat) (l : List Nat) (size : Int)
    (h0 : 0 < size) (h1 : size < 2147483648)
    (hB : m1.blocks block = m.blocks block)
    (hfirst : (m.blocks block).first = l.headD 0)
    (hlinked : Linked m block 0 (block + SIZEOF_CONTIGUOUS) l)
    (hsame : ∀ a ∈ l, m1.nodes a = m.nodes a) :
    ∃ p r r1, cmalloc l.length m block size = some (p, r) ∧
      cmalloc l.length m1 block size = some (p, r1) ∧
      (p ≠ 0 → ∃ pv nx, IsAddrPrev l (p - SIZEOF_CNODE) pv ∧
        IsAddrNext l (p - SIZEOF_CNODE) nx ∧
        r.nodes (p - SIZEOF_CNODE)
          = { nsize := size.toNat, prev := pv, next := nx, block := block } ∧
        r1.nodes (p - SIZEOF_CNODE)
          = { nsize := size.toNat, prev := pv, next := nx, block := block }) := by
  have hsz : toSizeT size = size.toNat := by
    have := toSizeT_pos size h0 h1
    omega
  have hlinked1 : Linked m1 block 0 (block + SIZEOF_CONTIGUOUS) l :=
    Linked.congr (by rw [hB]) hsame hlinked
  have hfirst1 : (m1.blocks block).first = l.headD 0 := by rw [hB]; exact hfirst
  obtain ⟨p, r, e, hp⟩ := cmalloc_new_header size hfirst hlinked
  obtain ⟨q, r1, e1, hq⟩ := cmalloc_new_header size hfirst1 hlinked1
  have hc := cmalloc_congr size l.length hB hfirst hlinked hsame
  rw [e, e1] at hc
  have hqp : q = p := by simpa [returned] using hc
  subst hqp
  refine ⟨q, r, r1, e, e1, fun h => ?_⟩
  obtain ⟨pv, nx, n1, n2, hh⟩ := hp h
  obtain ⟨pv1, nx1, k1, k2, hh1⟩ := hq h
  have e2 : pv1 = pv := isAddrPrev_unique k1 n1
  have e3 : nx1 = nx := isAddrNext_unique k2 n2
  subst e2 e3
  rw [hsz] at hh hh1
  exact ⟨pv1, nx1, n1, n2, hh, hh1⟩

/-- The arena of 1024 bytes at 4096 with chunks of 100 and 200 bytes at 4112 and
4244, once with zero bytes in the tail gap and once with a stale header at 4476,
and a request of 50 bytes. -/
theorem cmalloc_header_free_of_residue_witness :
    ((0 : Int) < 50 ∧ (50 : Int) < 2147483648 ∧
      twoChunkArenaStale.blocks 4096 = twoChunkArena.blocks 4096 ∧
      (twoChunkArena.blocks 4096).first = [4112, 4244].headD 0 ∧
      Linked twoChunkArena 4096 0 (4096 + SIZEOF_CONTIGUOUS) [4112, 4244] ∧
      (∀ a ∈ [4112, 4244], twoChunkArenaStale.nodes a = twoChunkArena.nodes a)) ∧
    ∃ p r r1, cmalloc [4112, 4244].length twoChunkArena 4096 50 = some (p, r) ∧
      cmalloc [4112, 4244].length twoChunkArenaStale 4096 50 = some (p, r1) ∧
      (p ≠ 0 → ∃ pv nx, IsAddrPrev [4112, 4244] (p - SIZEOF_CNODE) pv ∧
        IsAddrNext [4112, 4244] (p - SIZEOF_CNODE) nx ∧
        r.nodes (p - SIZEOF_CNODE)
          = { nsize := (50 : Int).toNat, prev := pv, next := nx, block := 4096 } ∧
        r1.nodes (p - SIZEOF_CNODE)
          = { nsize := (50 : Int).toNat, prev := pv, next := nx, block := 4096 }) :=
  have hB : twoChunkArenaStale.blocks 4096 = twoChunkArena.blocks 4096 := by decide
  have hfirst : (twoChunkArena.blocks 4096).first = [4112, 4244].headD 0 := by decide
  have hlinked : Linked twoChunkArena 4096 0 (4096 + SIZEOF_CONTIGUOUS) [4112, 4244] :=
    ⟨by decide, by decide, by decide, by decide, by decide,
      by decide, by decide, by decide, by decide, by decide, trivial⟩
  have hsame : ∀ a ∈ [4112, 4244], twoChunkArenaStale.nodes a = twoChunkArena.nodes a := by
    decide
  ⟨⟨by decide, by decide, hB, hfirst, hlinked, hsame⟩,
    cmalloc_header_free_of_residue twoChunkArena twoChunkArenaStale 4096 [4112, 4244] 50
      (by decide) (by decide) hB hfirst hlinked hsame⟩

/-- The two memories of the example: the stale header at 4476 holds four
arbitrary fields before the call; `cmalloc` of 50 bytes returns 4508 in both and
leaves the header `⟨50, 4244, 0, 4096⟩` at 4476 in both. -/
theorem stale_header_overwritten :
    (twoChunkArena.nodes 4476, twoChunkArenaStale.nodes 4476,
      (cmalloc 2 twoChunkArena 4096 50).map (fun r => (r.1, r.2.nodes 4476)),
      (cmalloc 2 twoChunkArenaStale 4096 50).map (fun r => (r.1, r.2.nodes 4476)))
      = (⟨0, 0, 0, 0⟩, ⟨999, 4112, 4244, 77⟩, some (4508, ⟨50, 4244, 0, 4096⟩),
        some (4508, ⟨50, 4244, 0, 4096⟩)) := by
  decide!

/-! ## Allocate then release on linked arenas -/

/-- In a linked list the successor of a chunk points back to the chunk. -/
theorem Linked.next_prev {m : Mem} {block x : Nat} :
    ∀ {l : List Nat} {prev lo : Nat}, Linked m block prev lo l → x ∈ l →
      (m.nodes x).next ≠ 0 → (m.nodes (m.nodes x).next).prev = x := by
  intro l
  induction l with
  | nil => intro prev lo _ hx; simp at hx
  | cons c r ih =>
    intro prev lo h hx hn
    obtain ⟨-, -, -, h4, -, h6⟩ := h
    rcases List.mem_cons.mp hx with rfl | hxr
    · cases r with
      | nil => exact absurd h4 hn
      | cons d r =>
        simp only [List.headD] at h4
        rw [h4]
        exact h6.2.1
    · exact ih h6 hxr hn

/-- Releasing a chunk that was linked in at `e` between `x` and the successor of
`x` restores the arena header and every header other than the one at `e`. -/
theorem cfree_after_insert {m m1 : Mem} {x e block sz : Nat}
    (hx0 : x ≠ 0) (hxe : x ≠ e) (hne : (m.nodes x).next ≠ e) (hnx : (m.nodes x).next ≠ x)
    (hback : (m.nodes x).next ≠ 0 → (m.nodes (m.nodes x).next).prev = x)
    (hE : m1.nodes e = { nsize := sz, prev := x, next := (m.nodes x).next, block := block })
    (hB : m1.blocks = m.blocks)
    (hX : m1.nodes x = { m.nodes x with next := e })
    (hN : (m.nodes x).next ≠ 0 →
      m1.nodes (m.nodes x).next = { m.nodes (m.nodes x).next with prev := e })
    (hframe : ∀ a, a ≠ x → a ≠ e → a ≠ (m.nodes x).next ∨ (m.nodes x).next = 0 →
      m1.nodes a = m.nodes a) :
    (cfree m1 (e + SIZEOF_CNODE)).blocks = m.blocks ∧
      ∀ a, a ≠ e → (cfree m1 (e + SIZEOF_CNODE)).nodes a = m.nodes a := by
  have k32 : SIZEOF_CNODE = 32 := rfl
  have hp0 : e + SIZEOF_CNODE ≠ 0 := by omega
  unfold cfree
  dsimp only
  rw [if_neg hp0, Nat.add_sub_cancel, hE]
  dsimp only
  by_cases hn0 : (m.nodes x).next = 0
  · rw [if_neg (fun h => hx0 h.2), if_pos hn0]
    refine ⟨hB, fun a ha => ?_⟩
    simp only [Mem.setNext, Mem.setPrev, Function.update_apply, if_neg ha]
    split_ifs with h1
    · subst h1
      rw [hX]
      cases hc : m.nodes a
      rw [hc] at hn0
      simp only at hn0
      simp [hn0]
    · exact hframe a h1 ha (Or.inr hn0)
  · rw [if_neg (fun h => hn0 h.1), if_neg hn0, if_neg (fun h => hx0 h.1)]
    refine ⟨hB, fun a ha => ?_⟩
    have hEx : e ≠ x := fun h => hxe h.symm
    simp only [Mem.setNext, Mem.setPrev, Function.update_apply, if_neg hEx, hE,
      if_neg hnx]
    split_ifs with h1 h2
    · subst h1
      rw [hN hn0]
      have := hback hn0
      cases hc : m.nodes (m.nodes x).next
      rw [hc] at this
      simp only at this
      simp [this]
    · subst h2
      rw [hX]
    · exact hframe a h2 ha (Or.inl h1)

/-- Releasing the only chunk, linked in at `e` on an empty arena, restores the
arena header. -/
theorem cfree_after_first (m m1 : Mem) (e block sz : Nat)
    (hfirst : (m.blocks block).first = 0)
    (hE : m1.nodes e = { nsize := sz, prev := 0, next := 0, block := block })
    (hB : m1.blocks block = { m.blocks block with first := e }) :
    (cfree m1 (e + SIZEOF_CNODE)).blocks block = m.blocks block := by
  have k32 : SIZEOF_CNODE = 32 := rfl
  have hp0 : e + SIZEOF_CNODE ≠ 0 := by omega
  unfold cfree
  dsimp only
  rw [if_neg hp0, Nat.add_sub_cancel, hE]
  dsimp only
  rw [if_pos ⟨rfl, rfl⟩]
  simp only [Mem.setFirst, Function.update_same, hB]
  cases hb : m.blocks block
  rw [hb] at hfirst
  simp only at hfirst
  rw [hfirst]

/-- Releasing a chunk that was linked in at `e` in front of the head `c` restores
the arena header and every header other than the one at `e`. -/
theorem cfree_after_head (m m1 : Mem) (c e block sz : Nat)
    (hc0 : c ≠ 0) (hce : c ≠ e)
    (hfirst : (m.blocks block).first = c) (hprev : (m.nodes c).prev = 0)
    (hE : m1.nodes e = { nsize := sz, prev := 0, next := c, block := block })
    (hB : m1.blocks block = { m.blocks block with first := e })
    (hC : m1.nodes c = { m.nodes c with prev := e })
    (hframe : ∀ a, a ≠ c → a ≠ e → m1.nodes a = m.nodes a) :
    (cfree m1 (e + SIZEOF_CNODE)).blocks block = m.blocks block ∧
      ∀ a, a ≠ e → (cfree m1 (e + SIZEOF_CNODE)).nodes a = m.nodes a := by
  have k32 : SIZEOF_CNODE = 32 := rfl
  have hp0 : e + SIZEOF_CNODE ≠ 0 := by omega
  unfold cfree
  dsimp only
  rw [if_neg hp0, Nat.add_sub_cancel, hE]
  dsimp only
  rw [if_neg (fun h => hc0 h.1), if_neg hc0, if_pos ⟨rfl, hc0⟩]
  constructor
  · simp only [Mem.setFirst, Mem.setPrev, Mem.setNext, Function.update_same, hB]
    cases hb : m.blocks block
    rw [hb] at hfirst
    simp only at hfirst
    rw [hfirst]
  · intro a ha
    have e1 : (m1.setFirst block c).nodes = m1.nodes := rfl
    simp only [Mem.setPrev, Mem.setNext, e1, hE, Function.update_apply, if_neg ha]
    split_ifs with h1
    · subst h1
      rw [hC]
      cases hc : m.nodes a
      rw [hc] at hprev
      simp only at hprev
      simp [hprev]
    · exact hframe a h1 ha

/-- On an arena whose chunks are linked in ascending order from `block->first`,
of any size, `cmalloc` with fuel for every chunk followed at once by `cfree` of
the returned pointer leaves the arena header and the header of every chunk of
the list as they were. -/
theorem cmalloc_cfree_restores {m : Mem} {block : Nat} {l : List Nat} (size : Int)
    (hfirst : (m.blocks block).first = l.headD 0)
    (hlinked : Linked m block 0 (block + SIZEOF_CONTIGUOUS) l) :
    ∃ p m1, cmalloc l.length m block size = some (p, m1) ∧
      (cfree m1 p).blocks block = m.blocks block ∧
      ∀ a ∈ l, (cfree m1 p).nodes a = m.nodes a := by
  have k32 : SIZEOF_CNODE = 32 := rfl
  have k16 : SIZEOF_CONTIGUOUS = 16 := rfl
  cases l with
  | nil =>
    simp only [List.headD] at hfirst
    unfold cmalloc
    simp only [List.length_nil]
    rw [if_pos hfirst]
    split_ifs with hfit
    · refine ⟨_, _, rfl, ?_, fun a ha => by simp at ha⟩
      refine cfree_after_first m _ _ block (toSizeT size) hfirst ?_ ?_
      · simp [Mem.setNext, Mem.setNsize, Mem.setPrev, Mem.setBlock, Mem.setFirst]
      · simp [Mem.setNext, Mem.setNsize, Mem.setPrev, Mem.setBlock, Mem.setFirst]
    · exact ⟨0, m, rfl, rfl, fun _ _ => rfl⟩
  | cons c r =>
    simp only [List.headD] at hfirst
    have hl := hlinked
    obtain ⟨a1, a2, a3, a4, a5, hrest⟩ := hlinked
    have l1 := lt_chunkEnd m c
    have hc0 : (m.blocks block).first ≠ 0 := by omega
    have hcm : cmalloc (c :: r).length m block size = add_node (r.length + 1) m c size block := by
      unfold cmalloc
      simp only [List.length_cons]
      rw [if_neg hc0, hfirst]
    rw [hcm]
    by_cases hhead : (m.nodes c).prev = 0 ∧ toSizeT (gap_below_block c block) > need size
    · rw [add_node_succ, if_pos hhead]
      have hne : c ≠ block + SIZEOF_CONTIGUOUS := ne_of_fit hhead.2
      have hc1 : c ≠ 0 := by omega
      have hres := cfree_after_head m
        ((((((m.setFirst block (block + SIZEOF_CONTIGUOUS)).setNext
            (block + SIZEOF_CONTIGUOUS) c).setNsize (block + SIZEOF_CONTIGUOUS)
            (toSizeT size)).setPrev (block + SIZEOF_CONTIGUOUS) 0).setBlock
            (block + SIZEOF_CONTIGUOUS) block).setPrev c (block + SIZEOF_CONTIGUOUS))
        c (block + SIZEOF_CONTIGUOUS) block (toSizeT size) hc1 hne hfirst hhead.1
        (by simp [Mem.setNext, Mem.setNsize, Mem.setPrev, Mem.setBlock, Mem.setFirst,
          Function.update_apply, hne, hne.symm])
        (by simp [Mem.setNext, Mem.setNsize, Mem.setPrev, Mem.setBlock, Mem.setFirst])
        (by simp [Mem.setNext, Mem.setNsize, Mem.setPrev, Mem.setBlock, Mem.setFirst,
          Function.update_apply, hne, hne.symm])
        (by
          intro a e1 e2
          simp [Mem.setNext, Mem.setNsize, Mem.setPrev, Mem.setBlock, Mem.setFirst,
            Function.update_apply, e1, e2])
      refine ⟨_, _, rfl, hres.1, fun a ha => hres.2 a ?_⟩
      rcases List.mem_cons.mp ha with rfl | har
      · exact hne
      · have := Linked.lo_le hrest a har
        omega
    · obtain ⟨p, m1, e, hp⟩ := add_node_new_header size r c 0 (block + SIZEOF_CONTIGUOUS)
        (r.length + 1) hl (by omega) (Nat.lt_succ_self _) hhead
      refine ⟨p, m1, e, ?_⟩
      by_cases h : p = 0
      · subst h
        have hm := add_node_null_unchanged _ _ _ _ _ _ e
        subst hm
        exact ⟨rfl, fun _ _ => rfl⟩
      · obtain ⟨x, hx, rfl, hnext, hhdr, hB, hX, hN, hframe⟩ := hp h
        have lx := lt_chunkEnd m x
        have hxlo := Linked.lo_le hl x hx
        obtain ⟨i1, -⟩ := Linked.split_at hl hx
        have hres := cfree_after_insert (by omega) (by omega)
          (by rcases hnext with h3 | h3 <;> omega) (by rcases hnext with h3 | h3 <;> omega)
          (Linked.next_prev hl hx) hhdr hB hX hN hframe
        refine ⟨by rw [hres.1], fun a ha => hres.2 a ?_⟩
        rcases i1 a ha with h1 | ⟨h1, h2⟩
        · omega
        · rcases hnext with h3 | h3
          · exact absurd h3 h1
          · omega

/-! ## Head gap and merged gaps without truncation -/

/-- A head gap below `2^31` bytes that is strictly greater than the requirement
is used: `cmalloc` places the new header at the end of the arena header, makes
it `block->first` with `prev = NULL` and the old head as `next`, sets the old
head's `prev` to it, and changes no other chunk header. -/
theorem head_gap_reuse_below_two_gib (m : Mem) (block c fuel : Nat) (size : Int)
    (h0 : 0 < size) (h1 : size < 2147483648)
    (hfirst : (m.blocks block).first = c) (hprev : (m.nodes c).prev = 0)
    (hlo : block + SIZEOF_CONTIGUOUS ≤ c)
    (hsmall : c - (block + SIZEOF_CONTIGUOUS) < 2147483648)
    (hgap : (c : Int) - ((block + SIZEOF_CONTIGUOUS : Nat) : Int) > size + (SIZEOF_CNODE : Int)) :
    ∃ m1, cmalloc (fuel + 1) m block size
        = some (block + SIZEOF_CONTIGUOUS + SIZEOF_CNODE, m1) ∧
      m1.blocks block = { m.blocks block with first := block + SIZEOF_CONTIGUOUS } ∧
      m1.nodes (block + SIZEOF_CONTIGUOUS)
        = { nsize := size.toNat, prev := 0, next := c, block := block } ∧
      m1.nodes c = { m.nodes c with prev := block + SIZEOF_CONTIGUOUS } ∧
      ∀ a, a ≠ c → a ≠ block + SIZEOF_CONTIGUOUS → m1.nodes a = m.nodes a := by
  have k32 : SIZEOF_CNODE = 32 := rfl
  have k16 : SIZEOF_CONTIGUOUS = 16 := rfl
  have hsz : toSizeT size = size.toNat := by
    have := toSizeT_pos size h0 h1
    omega
  have hne : c ≠ block + SIZEOF_CONTIGUOUS := by omega
  have hc0 : (m.blocks block).first ≠ 0 := by omega
  have htest : toSizeT (gap_below_block c block) > need size :=
    (gap_test c (block + SIZEOF_CONTIGUOUS) size hlo hsmall h0 h1).mpr hgap
  have hcm : cmalloc (fuel + 1) m block size = add_node (fuel + 1) m c size block := by
    unfold cmalloc
    dsimp only
    rw [if_neg hc0, hfirst]
  rw [hcm, add_node_succ, if_pos ⟨hprev, htest⟩, hsz]
  refine ⟨_, rfl, ?_, ?_, ?_, ?_⟩
  · simp [Mem.setNext, Mem.setNsize, Mem.setPrev, Mem.setBlock, Mem.setFirst]
  · simp [Mem.setNext, Mem.setNsize, Mem.setPrev, Mem.setBlock, Mem.setFirst,
      Function.update_apply, hne, hne.symm]
  · simp [Mem.setNext, Mem.setNsize, Mem.setPrev, Mem.setBlock, Mem.setFirst,
      Function.update_apply, hne, hne.symm]
  · intro a e1 e2
    simp [Mem.setNext, Mem.setNsize, Mem.setPrev, Mem.setBlock, Mem.setFirst,
      Function.update_apply, e1, e2]

/-- The function `gapsize` after any `cfree`: the gap from `a` to `b` is the gap
from `a` to `c`, the header and the payload of `c`, and the gap from `c` to `b`,
in `size_t` arithmetic. -/
theorem gapsize_after_cfree (m : Mem) (p a c b : Nat) :
    gapsize (cfree m p) a b
      = (gapsize m a c + SIZEOF_CNODE + (m.nodes c).nsize + gapsize m c b)
          % 18446744073709551616 := by
  unfold gapsize
  rw [(cfree_frame m p).2 a]
  unfold toSizeT SIZEOF_CNODE
  omega

/-! ## Links of a new chunk once chunks overlap -/

/-- C13 at its failing input.  Arena of `2^31 + 402` bytes after the first six
calls of the session of C3: the live headers are 4112, 4145, 2147487793 and
2147488112, and the chunk at 4145 ends at 2147487824, behind its successor.
The second memory has the same arena header and the same four live headers and
other bytes in the payload behind 2147487832.  In both memories
`cmalloc(block, 256)` returns 2147487856 and writes the header
`{nsize 256, prev 4145, next 2147487793}` at 2147487824.  The address neighbours
of 2147487824 among the live headers are 2147487793 below and 2147488112 above,
not 4145 and 2147487793. -/
theorem cmalloc_links_chunk_to_non_neighbours :
    (Session.run 4 4096 (Session.fresh Mem.zero 4096 2147484050)
        [.alloc 1, .alloc 2147483616, .alloc 287, .alloc 1, .release 4177,
         .alloc 2147483647]).map
        (fun s => (chunkList 5 s.mem 4096,
          (cmalloc 4 s.mem 4096 256).map (fun r => (r.1, r.2.nodes 2147487824)),
          (cmalloc 4 (((s.mem.setPrev 2147487824 7777).setNext 2147487824 8888).setBlock
            2147487824 9999) 4096 256).map (fun r => (r.1, r.2.nodes 2147487824))))
      = some ([4112, 4145, 2147487793, 2147488112],
          some (2147487856, { nsize := 256, prev := 4145, next := 2147487793, block := 4096 }),
          some (2147487856, { nsize := 256, prev := 4145, next := 2147487793, block := 4096 })) ∧
    (Session.run 4 4096 (Session.fresh Mem.zero 4096 2147484050)
        [.alloc 1, .alloc 2147483616, .alloc 287, .alloc 1, .release 4177,
         .alloc 2147483647]).map
        (fun s => ([4112, 4145, 2147487793, 2147488112].map
          (fun a => decide ((((s.mem.setPrev 2147487824 7777).setNext 2147487824 8888).setBlock
            2147487824 9999).nodes a = s.mem.nodes a)),
          decide ((((s.mem.setPrev 2147487824 7777).setNext 2147487824 8888).setBlock
            2147487824 9999).blocks 4096 = s.mem.blocks 4096)))
      = some ([true, true, true, true], true) ∧
    IsAddrPrev [4112, 4145, 2147487793, 2147488112] 2147487824 2147487793 ∧
    IsAddrNext [4112, 4145, 2147487793, 2147488112] 2147487824 2147488112 ∧
    ¬IsAddrPrev [4112, 4145, 2147487793, 2147488112] 2147487824 4145 ∧
    ¬IsAddrNext [4112, 4145, 2147487793, 2147488112] 2147487824 2147487793 := by
  refine ⟨by decide!, by decide!, ?_, ?_, ?_, ?_⟩
  · unfold IsAddrPrev; decide
  · unfold IsAddrNext; decide
  · unfold IsAddrPrev; decide
  · unfold IsAddrNext; decide

end Contiguous
